import Mathlib

/-!
Verification of the board-mutation engine of `src/app/components/SameGame.tsx`
(a SameGame-style merge puzzle whose goal is the tile 2147483648).

The TypeScript component is shallowly embedded: a board is a row-major list
of rows of optional tile values (`null` becomes `none`), and each pure
function of the source (`findConnectedPanels`, `findFirstClickablePanel`,
`applyGravity`, `refillBoard`, `generateInitialBoard`, `getRandomNumber`,
and the board transformation performed by `handlePanelClick` and by the
auto-mode effect) is translated into a Lean function.  `Math.random()` is
modelled by an explicit injectable sampler `rand : Nat → Nat → Fin 3`
giving, for each cell position, the index drawn into `INITIAL_NUMBERS`
(the source draws `Math.floor(Math.random() * 3)`, which is always in
`{0, 1, 2}`; indexing the draws by the cell position they fill is a
faithful relabelling because every cell consumes exactly one draw, in a
deterministic order).
-/

/-- `type Panel = number | null` (line 5). -/
abbrev Panel := Option Nat

/-- `type GameBoard = Panel[][]` (line 6): row-major, `board[row][col]`. -/
abbrev GameBoard := List (List Panel)

/-- `const INITIAL_NUMBERS = [1, 2, 4]` (line 11). -/
def INITIAL_NUMBERS : List Nat := [1, 2, 4]

/-- `const TARGET_NUMBER = 2147483648` (line 12). -/
def TARGET_NUMBER : Nat := 2147483648

/-- Reading `board[row][col]`; out-of-range reads give `none` (the source
only ever reads in-range cells). -/
def getCell (board : GameBoard) (row col : Nat) : Panel :=
  (board.getD row []).getD col none

/-- Writing `board[row][col] = v` on a (copied) board; out-of-range writes
are dropped (the source only ever writes in-range cells). -/
def setCell (board : GameBoard) (row col : Nat) (v : Panel) : GameBoard :=
  board.set row ((board.getD row []).set col v)

/-- Well-formedness: a `boardSize × boardSize` matrix, as every board built
by the source is. -/
def WF (board : GameBoard) (boardSize : Nat) : Prop :=
  board.length = boardSize ∧ ∀ row ∈ board, row.length = boardSize

instance : DecidablePred (fun b : GameBoard => WF b n) := by
  intro b; unfold WF; infer_instance

/-- Builder for the fresh `boardSize × boardSize` arrays the source
allocates row by row. -/
def mkBoard (boardSize : Nat) (f : Nat → Nat → Panel) : GameBoard :=
  (List.range boardSize).map (fun row => (List.range boardSize).map (f row))

/-- `getRandomNumber` (lines 28-31): `INITIAL_NUMBERS[randomIndex]` for a
freshly drawn `randomIndex ∈ {0,1,2}`. -/
def getRandomNumber (randomIndex : Fin 3) : Nat :=
  INITIAL_NUMBERS.getD randomIndex.val 0

/-- `generateInitialBoard` (lines 15-25): every cell of a fresh
`boardSize × boardSize` board is sampled from `INITIAL_NUMBERS`. -/
def generateInitialBoard (rand : Nat → Nat → Fin 3) (boardSize : Nat) : GameBoard :=
  mkBoard boardSize (fun row col => some (INITIAL_NUMBERS.getD (rand row col).val 0))

/-! ### Connectivity analyzer: `findConnectedPanels` (lines 45-82) -/

/-- The in-range 4-directional neighbours pushed for a matching cell
(lines 64-77), in source order up, down, left, right; each `if` mirrors the
bounds check `newRow >= 0 && newRow < boardSize && newCol >= 0 && newCol <
boardSize` (the `>= 0` halves are vacuous for the `+1` directions and
become `1 ≤ _` for the `-1` directions since coordinates are naturals). -/
def neighborCandidates (boardSize row col : Nat) : List (Nat × Nat) :=
  (if 1 ≤ row ∧ row - 1 < boardSize ∧ col < boardSize then [(row - 1, col)] else []) ++
  (if row + 1 < boardSize ∧ col < boardSize then [(row + 1, col)] else []) ++
  (if row < boardSize ∧ 1 ≤ col ∧ col - 1 < boardSize then [(row, col - 1)] else []) ++
  (if row < boardSize ∧ col + 1 < boardSize then [(row, col + 1)] else [])

/-- The `while (queue.length > 0)` loop of `findConnectedPanels`
(lines 53-79), with an explicit fuel argument bounding the number of
iterations (the source loop terminates because the visited set is bounded
by the board and each iteration pops one queue entry; `bfsFuel` below is a
sufficient bound, proved in `bfsLoop_correct`). -/
def bfsLoop (board : GameBoard) (target : Nat) (boardSize : Nat) :
    Nat → List (Nat × Nat) → List (Nat × Nat) → List (Nat × Nat) → List (Nat × Nat)
  | 0, _, connected, _ => connected
  | _ + 1, _, connected, [] => connected
  | fuel + 1, visited, connected, p :: rest =>
      if p ∈ visited then
        bfsLoop board target boardSize fuel visited connected rest
      else if getCell board p.1 p.2 = some target then
        bfsLoop board target boardSize fuel (p :: visited) (connected ++ [p])
          (rest ++ (neighborCandidates boardSize p.1 p.2).filter
            (fun q => decide (q ∉ p :: visited)))
      else
        bfsLoop board target boardSize fuel (p :: visited) connected rest

/-- Fuel sufficient for `bfsLoop` to drain its queue (each iteration either
pops a visited entry or marks a new cell visited, pushing at most four
neighbours). -/
def bfsFuel (boardSize : Nat) : Nat := 5 * boardSize * boardSize + 1

/-- `findConnectedPanels` (lines 45-82): BFS flood fill of the
`targetNumber` region seeded at `(startRow, startCol)`; an empty seed
returns `[]` (line 47). -/
def findConnectedPanels (board : GameBoard) (startRow startCol : Nat)
    (boardSize : Nat) : List (Nat × Nat) :=
  match getCell board startRow startCol with
  | none => []
  | some target =>
      bfsLoop board target boardSize (bfsFuel boardSize) [] [] [(startRow, startCol)]

/-! ### The specification-side connectivity notions used to state region
correctness. -/

/-- An in-range coordinate. -/
def InBounds (boardSize : Nat) (p : Nat × Nat) : Prop :=
  p.1 < boardSize ∧ p.2 < boardSize

instance : DecidablePred (InBounds n) := by
  intro p; unfold InBounds; infer_instance

/-- 4-directional adjacency of coordinates. -/
def Adj (p q : Nat × Nat) : Prop :=
  (p.1 = q.1 ∧ (p.2 + 1 = q.2 ∨ q.2 + 1 = p.2)) ∨
  (p.2 = q.2 ∧ (p.1 + 1 = q.1 ∨ q.1 + 1 = p.1))

instance (p q : Nat × Nat) : Decidable (Adj p q) := by
  unfold Adj
  infer_instance

/-- One step of same-value connectivity: `q` is an in-range neighbour of
`p` holding the value `v`. -/
def Step (board : GameBoard) (boardSize v : Nat) (p q : Nat × Nat) : Prop :=
  InBounds boardSize q ∧ getCell board q.1 q.2 = some v ∧ Adj p q

/-- Same-value reachability from the seed: the reflexive-transitive closure
of `Step`.  The maximal 4-connected equal-valued region of a seed `s`
holding value `v` is exactly `{p | InBounds ∧ value v ∧ Reaches s p}`. -/
def Reaches (board : GameBoard) (boardSize v : Nat) (s p : Nat × Nat) : Prop :=
  Relation.ReflTransGen (Step board boardSize v) s p

/-! ### Small list lemmas used throughout -/

theorem getD_range_map {α : Type} (f : Nat → α) (d : α) :
    ∀ n i, i < n → ((List.range n).map f).getD i d = f i := by
  intro n i hi
  rw [List.getD_eq_getElem _ _ (by simpa using hi)]
  simp

theorem getD_set_self {α : Type} (a d : α) :
    ∀ (l : List α) (i : Nat), i < l.length → (l.set i a).getD i d = a := by
  intro l
  induction l with
  | nil => intro i hi; simp at hi
  | cons x xs ih =>
      intro i hi
      cases i with
      | zero => rfl
      | succ j =>
          simp only [List.set]
          simpa [List.getD] using ih j (by simpa using hi)

theorem getD_set_ne {α : Type} (a d : α) :
    ∀ (l : List α) (i j : Nat), i ≠ j → (l.set i a).getD j d = l.getD j d := by
  intro l
  induction l with
  | nil => intro i j _; simp
  | cons x xs ih =>
      intro i j hij
      cases i with
      | zero =>
          cases j with
          | zero => exact absurd rfl hij
          | succ j' => rfl
      | succ i' =>
          cases j with
          | zero => rfl
          | succ j' =>
              simp only [List.set]
              simpa [List.getD] using ih i' j' (by omega)

theorem getCell_mkBoard (f : Nat → Nat → Panel) (n r c : Nat)
    (hr : r < n) (hc : c < n) : getCell (mkBoard n f) r c = f r c := by
  unfold getCell mkBoard
  rw [getD_range_map _ _ n r hr, getD_range_map _ _ n c hc]

theorem WF_mkBoard (f : Nat → Nat → Panel) (n : Nat) : WF (mkBoard n f) n := by
  constructor
  · simp [mkBoard]
  · intro row hrow
    simp only [mkBoard, List.mem_map] at hrow
    obtain ⟨r, _, rfl⟩ := hrow
    simp

theorem row_length_of_WF {board : GameBoard} {n : Nat} (h : WF board n)
    (r : Nat) (hr : r < n) : (board.getD r []).length = n := by
  apply h.2
  have hrl : r < board.length := by rw [h.1]; exact hr
  rw [List.getD_eq_getElem _ _ hrl]
  exact List.getElem_mem hrl

theorem getCell_oob {board : GameBoard} {n : Nat} (h : WF board n)
    (r c : Nat) (hout : ¬(r < n ∧ c < n)) : getCell board r c = none := by
  unfold getCell
  by_cases hr : r < n
  · have hc : ¬ c < n := fun hc => hout ⟨hr, hc⟩
    have hlen := row_length_of_WF h r hr
    rw [List.getD_eq_default]
    omega
  · have hrow : board.getD r [] = [] := List.getD_eq_default _ _ (by rw [h.1]; omega)
    rw [hrow]
    simp

theorem inBounds_of_getCell_ne_none {board : GameBoard} {n : Nat}
    (h : WF board n) {r c : Nat} (hne : getCell board r c ≠ none) :
    r < n ∧ c < n := by
  by_contra hout
  exact hne (getCell_oob h r c hout)

theorem WF_setCell {board : GameBoard} {n : Nat} (h : WF board n)
    (r c : Nat) (v : Panel) : WF (setCell board r c v) n := by
  constructor
  · simp [setCell, h.1]
  · intro row hrow
    by_cases hr : r < board.length
    · rcases List.mem_or_eq_of_mem_set hrow with hmem | rfl
      · exact h.2 row hmem
      · rw [List.length_set]
        exact row_length_of_WF h r (by rw [h.1] at hr; exact hr)
    · rw [setCell, List.set_eq_of_length_le (by omega)] at hrow
      exact h.2 row hrow

theorem getCell_setCell_self {board : GameBoard} {n : Nat} (h : WF board n)
    {r c : Nat} (hr : r < n) (hc : c < n) (v : Panel) :
    getCell (setCell board r c v) r c = v := by
  unfold getCell setCell
  have hrl : r < board.length := by rw [h.1]; exact hr
  rw [getD_set_self _ _ board r hrl]
  exact getD_set_self _ _ _ c (by rw [row_length_of_WF h r hr]; exact hc)

theorem getCell_setCell_ne {board : GameBoard} {r c r' c' : Nat}
    (hne : ¬(r' = r ∧ c' = c)) (v : Panel) :
    getCell (setCell board r c v) r' c' = getCell board r' c' := by
  unfold getCell setCell
  by_cases hr : r' = r
  · subst hr
    have hc : c' ≠ c := fun hc => hne ⟨rfl, hc⟩
    by_cases hrl : r' < board.length
    · rw [getD_set_self _ _ board r' hrl]
      exact getD_set_ne _ _ _ c c' (fun h => hc h.symm)
    · rw [List.set_eq_of_length_le (by omega)]
  · rw [getD_set_ne _ _ board r r' (fun h => hr h.symm)]

theorem boards_eq_getCell {b b' : GameBoard} (h : b = b') (r c : Nat) :
    getCell b r c = getCell b' r c := by rw [h]

/-! ### Facts about `neighborCandidates` -/

theorem mem_ite_singleton {α : Type} {P : Prop} [Decidable P] {x a : α} :
    x ∈ (if P then [a] else []) ↔ P ∧ x = a := by
  split_ifs with h <;> simp_all

theorem mem_neighborCandidates {n r c : Nat} {q : Nat × Nat} :
    q ∈ neighborCandidates n r c ↔
      (1 ≤ r ∧ r - 1 < n ∧ c < n) ∧ q = (r - 1, c) ∨
      (r + 1 < n ∧ c < n) ∧ q = (r + 1, c) ∨
      (r < n ∧ 1 ≤ c ∧ c - 1 < n) ∧ q = (r, c - 1) ∨
      (r < n ∧ c + 1 < n) ∧ q = (r, c + 1) := by
  simp only [neighborCandidates, List.mem_append, mem_ite_singleton]
  tauto

theorem length_neighborCandidates_le (n r c : Nat) :
    (neighborCandidates n r c).length ≤ 4 := by
  unfold neighborCandidates
  split_ifs <;> simp

theorem inBounds_of_mem_neighborCandidates {n r c : Nat} {q : Nat × Nat}
    (h : q ∈ neighborCandidates n r c) : InBounds n q := by
  rw [mem_neighborCandidates] at h
  rcases h with ⟨hc, rfl⟩ | ⟨hc, rfl⟩ | ⟨hc, rfl⟩ | ⟨hc, rfl⟩ <;>
    exact ⟨by omega, by omega⟩

theorem adj_of_mem_neighborCandidates {n r c : Nat} {q : Nat × Nat}
    (h : q ∈ neighborCandidates n r c) : Adj (r, c) q := by
  rw [mem_neighborCandidates] at h
  unfold Adj
  rcases h with ⟨hc, rfl⟩ | ⟨hc, rfl⟩ | ⟨hc, rfl⟩ | ⟨hc, rfl⟩ <;> simp <;> omega

theorem mem_neighborCandidates_of_adj {n : Nat} {p q : Nat × Nat}
    (hp : InBounds n p) (hq : InBounds n q) (hadj : Adj p q) :
    q ∈ neighborCandidates n p.1 p.2 := by
  obtain ⟨r, c⟩ := p
  obtain ⟨q1, q2⟩ := q
  obtain ⟨hp1, hp2⟩ := hp
  obtain ⟨hq1, hq2⟩ := hq
  simp only [InBounds] at hp1 hp2 hq1 hq2
  unfold Adj at hadj
  dsimp only at hadj
  rw [mem_neighborCandidates]
  rcases hadj with ⟨h1, h2 | h2⟩ | ⟨h1, h2 | h2⟩
  · exact Or.inr (Or.inr (Or.inr ⟨by omega, by rw [Prod.mk.injEq]; omega⟩))
  · exact Or.inr (Or.inr (Or.inl ⟨by omega, by rw [Prod.mk.injEq]; omega⟩))
  · exact Or.inr (Or.inl ⟨by omega, by rw [Prod.mk.injEq]; omega⟩)
  · exact Or.inl ⟨by omega, by rw [Prod.mk.injEq]; omega⟩

theorem length_le_of_nodup_inbounds {n : Nat} :
    ∀ l : List (Nat × Nat), l.Nodup → (∀ p ∈ l, InBounds n p) → l.length ≤ n * n := by
  intro l hnd hib
  have h1 : l.toFinset.card = l.length := List.toFinset_card_of_nodup hnd
  have h2 : l.toFinset ⊆ Finset.range n ×ˢ Finset.range n := by
    intro p hp
    rw [List.mem_toFinset] at hp
    have hib' := hib p hp
    rw [Finset.mem_product, Finset.mem_range, Finset.mem_range]
    exact ⟨hib'.1, hib'.2⟩
  calc l.length = l.toFinset.card := h1.symm
    _ ≤ (Finset.range n ×ˢ Finset.range n).card := Finset.card_le_card h2
    _ = n * n := by rw [Finset.card_product, Finset.card_range]

/-! ### Correctness of the BFS flood fill -/

/-- At loop exit (empty queue) the accumulated `connected` list is exactly
the same-value region of the seed. -/
theorem bfs_final
    {board : GameBoard} {n v : Nat} {s : Nat × Nat}
    (hsv : getCell board s.1 s.2 = some v)
    {visited connected : List (Nat × Nat)}
    (vInB : ∀ p ∈ visited, InBounds n p)
    (vConn : ∀ p ∈ visited, getCell board p.1 p.2 = some v → p ∈ connected)
    (connSub : ∀ p ∈ connected, p ∈ visited)
    (connNodup : connected.Nodup)
    (connSound : ∀ p ∈ connected, getCell board p.1 p.2 = some v ∧ Reaches board n v s p)
    (closure : ∀ p ∈ connected, ∀ q ∈ neighborCandidates n p.1 p.2, q ∈ visited)
    (seedIn : s ∈ visited) :
    connected.Nodup ∧
      ∀ p, p ∈ connected ↔
        InBounds n p ∧ getCell board p.1 p.2 = some v ∧ Reaches board n v s p := by
  refine ⟨connNodup, fun p => ⟨fun hp => ?_, fun hp => ?_⟩⟩
  · exact ⟨vInB p (connSub p hp), (connSound p hp).1, (connSound p hp).2⟩
  · obtain ⟨-, -, hpr⟩ := hp
    unfold Reaches at hpr
    induction hpr with
    | refl => exact vConn s seedIn hsv
    | tail hxy hstep ih =>
        obtain ⟨hqi, hqv, hadj⟩ := hstep
        have hbc : _ ∈ connected := ih
        have hbv := connSub _ hbc
        have hbi := vInB _ hbv
        have hmem := mem_neighborCandidates_of_adj hbi hqi hadj
        exact vConn _ (closure _ hbc _ hmem) hqv

/-- The BFS loop, run with enough fuel from any state satisfying the loop
invariants, computes exactly the seed's same-value region. -/
theorem bfsLoop_correct
    (board : GameBoard) (v n : Nat) (s : Nat × Nat)
    (hs : InBounds n s) (hsv : getCell board s.1 s.2 = some v) :
    ∀ (fuel : Nat) (visited connected queue : List (Nat × Nat)),
      visited.Nodup →
      (∀ p ∈ visited, InBounds n p) →
      (∀ p ∈ queue, InBounds n p) →
      (∀ p ∈ connected, p ∈ visited) →
      connected.Nodup →
      (∀ p ∈ visited, getCell board p.1 p.2 = some v → p ∈ connected) →
      (∀ p ∈ connected, getCell board p.1 p.2 = some v ∧ Reaches board n v s p) →
      (∀ p ∈ queue, p = s ∨ ∃ x ∈ connected, Adj x p) →
      (∀ p ∈ connected, ∀ q ∈ neighborCandidates n p.1 p.2, q ∈ visited ∨ q ∈ queue) →
      (s ∈ visited ∨ s ∈ queue) →
      5 * (n * n - visited.length) + queue.length ≤ fuel →
      (bfsLoop board v n fuel visited connected queue).Nodup ∧
      ∀ p, p ∈ bfsLoop board v n fuel visited connected queue ↔
        InBounds n p ∧ getCell board p.1 p.2 = some v ∧ Reaches board n v s p := by
  intro fuel
  induction fuel with
  | zero =>
      intro visited connected queue hvnd vInB qInB connSub cnd vConn cSound qSound closure seedIn hfuel
      have hq : queue = [] := List.length_eq_zero.mp (by omega)
      subst hq
      exact bfs_final hsv vInB vConn connSub cnd cSound
        (fun p hp q hq => (closure p hp q hq).resolve_right (by simp))
        (seedIn.resolve_right (by simp))
  | succ f ih =>
      intro visited connected queue hvnd vInB qInB connSub cnd vConn cSound qSound closure seedIn hfuel
      cases queue with
      | nil =>
          exact bfs_final hsv vInB vConn connSub cnd cSound
            (fun p hp q hq => (closure p hp q hq).resolve_right (by simp))
            (seedIn.resolve_right (by simp))
      | cons p rest =>
          rw [bfsLoop]
          by_cases hp : p ∈ visited
          · rw [if_pos hp]
            apply ih visited connected rest hvnd vInB
              (fun q hq => qInB q (List.mem_cons_of_mem _ hq)) connSub cnd vConn cSound
              (fun q hq => qSound q (List.mem_cons_of_mem _ hq))
            · intro x hx q hq
              rcases closure x hx q hq with h | h
              · exact Or.inl h
              · rcases List.mem_cons.mp h with rfl | h'
                · exact Or.inl hp
                · exact Or.inr h'
            · rcases seedIn with h | h
              · exact Or.inl h
              · rcases List.mem_cons.mp h with rfl | h'
                · exact Or.inl hp
                · exact Or.inr h'
            · have : (p :: rest).length = rest.length + 1 := rfl
              omega
          · rw [if_neg hp]
            have hpInB : InBounds n p := qInB p (List.mem_cons_self _ _)
            have hvnd' : (p :: visited).Nodup := List.nodup_cons.mpr ⟨hp, hvnd⟩
            have vInB' : ∀ q ∈ p :: visited, InBounds n q := by
              intro q hq
              rcases List.mem_cons.mp hq with rfl | h'
              · exact hpInB
              · exact vInB q h'
            have hcard : (p :: visited).length ≤ n * n :=
              length_le_of_nodup_inbounds _ hvnd' vInB'
            by_cases hcell : getCell board p.1 p.2 = some v
            · rw [if_pos hcell]
              have hpnc : p ∉ connected := fun h => hp (connSub p h)
              have hreach : Reaches board n v s p := by
                rcases qSound p (List.mem_cons_self _ _) with rfl | ⟨x, hx, hadj⟩
                · exact Relation.ReflTransGen.refl
                · exact (cSound x hx).2.tail ⟨hpInB, hcell, hadj⟩
              apply ih (p :: visited) (connected ++ [p])
                (rest ++ (neighborCandidates n p.1 p.2).filter
                  (fun q => decide (q ∉ p :: visited)))
                hvnd' vInB'
              · intro q hq
                rcases List.mem_append.mp hq with h' | h'
                · exact qInB q (List.mem_cons_of_mem _ h')
                · exact inBounds_of_mem_neighborCandidates (List.mem_of_mem_filter h')
              · intro x hx
                rcases List.mem_append.mp hx with h' | h'
                · exact List.mem_cons_of_mem _ (connSub x h')
                · rcases List.mem_singleton.mp h' with rfl
                  exact List.mem_cons_self _ _
              · refine List.Nodup.append cnd (List.nodup_singleton p) ?_
                intro a ha ha'
                rcases List.mem_singleton.mp ha' with rfl
                exact hpnc ha
              · intro x hx hxv
                rcases List.mem_cons.mp hx with rfl | h'
                · exact List.mem_append_right _ (List.mem_singleton_self _)
                · exact List.mem_append_left _ (vConn x h' hxv)
              · intro x hx
                rcases List.mem_append.mp hx with h' | h'
                · exact cSound x h'
                · rcases List.mem_singleton.mp h' with rfl
                  exact ⟨hcell, hreach⟩
              · intro q hq
                rcases List.mem_append.mp hq with h' | h'
                · rcases qSound q (List.mem_cons_of_mem _ h') with h'' | ⟨x, hx, hadj⟩
                  · exact Or.inl h''
                  · exact Or.inr ⟨x, List.mem_append_left _ hx, hadj⟩
                · exact Or.inr ⟨p, List.mem_append_right _ (List.mem_singleton_self _),
                    adj_of_mem_neighborCandidates (List.mem_of_mem_filter h')⟩
              · intro x hx q hq
                rcases List.mem_append.mp hx with h' | h'
                · rcases closure x h' q hq with h'' | h''
                  · exact Or.inl (List.mem_cons_of_mem _ h'')
                  · rcases List.mem_cons.mp h'' with rfl | h'''
                    · exact Or.inl (List.mem_cons_self _ _)
                    · exact Or.inr (List.mem_append_left _ h''')
                · have hx' : p = x := (List.mem_singleton.mp h').symm
                  subst hx'
                  by_cases hqv : q ∈ p :: visited
                  · exact Or.inl hqv
                  · refine Or.inr (List.mem_append_right _ ?_)
                    rw [List.mem_filter]
                    exact ⟨hq, by simpa using hqv⟩
              · rcases seedIn with h' | h'
                · exact Or.inl (List.mem_cons_of_mem _ h')
                · rcases List.mem_cons.mp h' with rfl | h''
                  · exact Or.inl (List.mem_cons_self _ _)
                  · exact Or.inr (List.mem_append_left _ h'')
              · have h1 : ((neighborCandidates n p.1 p.2).filter
                    (fun q => decide (q ∉ p :: visited))).length ≤ 4 :=
                  le_trans (List.length_filter_le _ _) (length_neighborCandidates_le n p.1 p.2)
                have h2 : (p :: rest).length = rest.length + 1 := rfl
                have h3 : (p :: visited).length = visited.length + 1 := rfl
                rw [List.length_append]
                omega
            · rw [if_neg hcell]
              apply ih (p :: visited) connected rest hvnd' vInB'
                (fun q hq => qInB q (List.mem_cons_of_mem _ hq))
                (fun x hx => List.mem_cons_of_mem _ (connSub x hx)) cnd
              · intro x hx hxv
                rcases List.mem_cons.mp hx with rfl | h'
                · exact absurd hxv hcell
                · exact vConn x h' hxv
              · exact cSound
              · exact fun q hq => qSound q (List.mem_cons_of_mem _ hq)
              · intro x hx q hq
                rcases closure x hx q hq with h' | h'
                · exact Or.inl (List.mem_cons_of_mem _ h')
                · rcases List.mem_cons.mp h' with rfl | h''
                  · exact Or.inl (List.mem_cons_self _ _)
                  · exact Or.inr h''
              · rcases seedIn with h' | h'
                · exact Or.inl (List.mem_cons_of_mem _ h')
                · rcases List.mem_cons.mp h' with rfl | h''
                  · exact Or.inl (List.mem_cons_self _ _)
                  · exact Or.inr h''
              · have h2 : (p :: rest).length = rest.length + 1 := rfl
                have h3 : (p :: visited).length = visited.length + 1 := rfl
                omega

/-- Master specification of `findConnectedPanels` for a non-empty in-range
seed: the returned list is duplicate-free and contains exactly the maximal
4-connected equal-valued region of the seed. -/
theorem findConnectedPanels_main (board : GameBoard) (n r c v : Nat)
    (hr : r < n) (hc : c < n) (hv : getCell board r c = some v) :
    (findConnectedPanels board r c n).Nodup ∧
    ∀ p, p ∈ findConnectedPanels board r c n ↔
      InBounds n p ∧ getCell board p.1 p.2 = some v ∧ Reaches board n v (r, c) p := by
  have hfc : findConnectedPanels board r c n
      = bfsLoop board v n (bfsFuel n) [] [] [(r, c)] := by
    unfold findConnectedPanels
    rw [hv]
  rw [hfc]
  apply bfsLoop_correct board v n (r, c) ⟨hr, hc⟩ hv (bfsFuel n) [] [] [(r, c)]
  · exact List.nodup_nil
  · intro p hp; simp at hp
  · intro p hp
    rcases List.mem_singleton.mp hp with rfl
    exact ⟨hr, hc⟩
  · intro p hp; simp at hp
  · exact List.nodup_nil
  · intro p hp; simp at hp
  · intro p hp; simp at hp
  · intro p hp
    rcases List.mem_singleton.mp hp with rfl
    exact Or.inl rfl
  · intro p hp; simp at hp
  · exact Or.inr (List.mem_singleton_self _)
  · show 5 * (n * n - 0) + 1 ≤ bfsFuel n
    unfold bfsFuel
    have : 5 * n * n = 5 * (n * n) := Nat.mul_assoc 5 n n
    omega

/-- An empty (or out-of-range) seed yields the empty region (line 47). -/
theorem findConnectedPanels_empty_seed (board : GameBoard) (r c n : Nat)
    (h : getCell board r c = none) : findConnectedPanels board r c n = [] := by
  unfold findConnectedPanels
  rw [h]

theorem region_nodup {board : GameBoard} {n r c v : Nat}
    (hr : r < n) (hc : c < n) (hv : getCell board r c = some v) :
    (findConnectedPanels board r c n).Nodup :=
  (findConnectedPanels_main board n r c v hr hc hv).1

theorem region_cells {board : GameBoard} {n r c v : Nat}
    (hr : r < n) (hc : c < n) (hv : getCell board r c = some v) :
    ∀ p ∈ findConnectedPanels board r c n, InBounds n p ∧ getCell board p.1 p.2 = some v :=
  fun p hp =>
    ⟨(((findConnectedPanels_main board n r c v hr hc hv).2 p).mp hp).1,
     (((findConnectedPanels_main board n r c v hr hc hv).2 p).mp hp).2.1⟩

theorem seed_mem_region {board : GameBoard} {n r c v : Nat}
    (hr : r < n) (hc : c < n) (hv : getCell board r c = some v) :
    (r, c) ∈ findConnectedPanels board r c n :=
  ((findConnectedPanels_main board n r c v hr hc hv).2 (r, c)).mpr
    ⟨⟨hr, hc⟩, hv, Relation.ReflTransGen.refl⟩

/-! ### Auto-solver scan: `findFirstClickablePanel` (lines 85-98) -/

/-- `findFirstClickablePanel` (lines 85-98): scan rows from `boardSize - 1`
down to `0` and, within a row, columns from `0` up to `boardSize - 1`;
return the first non-empty cell whose connected region has at least two
members (the nested `findSome?` over the (reversed) ranges is the two
nested `for` loops with their early `return`). -/
def findFirstClickablePanel (board : GameBoard) (boardSize : Nat) : Option (Nat × Nat) :=
  (List.range boardSize).reverse.findSome? (fun row =>
    (List.range boardSize).findSome? (fun col =>
      if (getCell board row col).isSome then
        if 2 ≤ (findConnectedPanels board row col boardSize).length then
          some (row, col)
        else none
      else none))

/-! ### First-hit characterisations of `findSome?` over index ranges -/

theorem findSome?_range_none {β : Type} (f : Nat → Option β) (n : Nat) :
    (List.range n).findSome? f = none ↔ ∀ i < n, f i = none := by
  rw [List.findSome?_eq_none_iff]
  constructor
  · intro h i hi
    exact h i (List.mem_range.mpr hi)
  · intro h i hi
    exact h i (List.mem_range.mp hi)

theorem findSome?_revRange_none {β : Type} (f : Nat → Option β) (n : Nat) :
    (List.range n).reverse.findSome? f = none ↔ ∀ i < n, f i = none := by
  rw [List.findSome?_eq_none_iff]
  constructor
  · intro h i hi
    exact h i (List.mem_reverse.mpr (List.mem_range.mpr hi))
  · intro h i hi
    exact h i (List.mem_range.mp (List.mem_reverse.mp hi))

theorem findSome?_append_cases {β α : Type} (f : α → Option β) :
    ∀ l₁ l₂ : List α, (l₁ ++ l₂).findSome? f =
      match l₁.findSome? f with
      | some b => some b
      | none => l₂.findSome? f := by
  intro l₁ l₂
  induction l₁ with
  | nil => simp
  | cons a t ih =>
      rw [List.cons_append, List.findSome?_cons, List.findSome?_cons]
      cases f a with
      | none => exact ih
      | some b => rfl

/-- First hit of a left-to-right scan of `0, 1, ..., n-1`. -/
theorem findSome?_range_some {β : Type} (f : Nat → Option β) :
    ∀ n y, (List.range n).findSome? f = some y →
      ∃ i, i < n ∧ f i = some y ∧ ∀ j < i, f j = none := by
  intro n
  induction n with
  | zero => intro y h; simp at h
  | succ m ih =>
      intro y h
      rw [List.range_succ, findSome?_append_cases] at h
      rcases hm : (List.range m).findSome? f with _ | b
      · rw [hm] at h
        dsimp only at h
        rw [List.findSome?_cons] at h
        have hfm : f m = some y := by
          rcases hfm' : f m with _ | b
          · rw [hfm'] at h
            simp at h
          · rw [hfm'] at h
            exact h
        refine ⟨m, Nat.lt_succ_self m, hfm, ?_⟩
        intro j hj
        exact (findSome?_range_none f m).mp hm j hj
      · rw [hm] at h
        dsimp only at h
        obtain ⟨i, hi, hfi, hbefore⟩ := ih b hm
        cases h
        exact ⟨i, Nat.lt_succ_of_lt hi, hfi, hbefore⟩

/-- First hit of a right-to-left scan of `n-1, n-2, ..., 0`. -/
theorem findSome?_revRange_some {β : Type} (f : Nat → Option β) :
    ∀ n y, (List.range n).reverse.findSome? f = some y →
      ∃ i, i < n ∧ f i = some y ∧ ∀ j, i < j → j < n → f j = none := by
  intro n
  induction n with
  | zero => intro y h; simp at h
  | succ m ih =>
      intro y h
      rw [List.range_succ, List.reverse_append, List.reverse_singleton,
        List.singleton_append, List.findSome?_cons] at h
      rcases hm : f m with _ | b
      · rw [hm] at h
        obtain ⟨i, hi, hfi, hafter⟩ := ih y h
        refine ⟨i, Nat.lt_succ_of_lt hi, hfi, ?_⟩
        intro j hij hj
        rcases Nat.lt_succ_iff_lt_or_eq.mp hj with hj' | rfl
        · exact hafter j hij hj'
        · exact hm
      · rw [hm] at h
        cases h
        refine ⟨m, Nat.lt_succ_self m, hm, ?_⟩
        intro j hij hj
        omega

/-! ### Gravity compactor: `applyGravity` (lines 101-142) -/

/-- The non-empty panels of column `col` collected top-to-bottom
(lines 106-111). -/
def columnPanels (board : GameBoard) (boardSize col : Nat) : List Nat :=
  (List.range boardSize).filterMap (fun row => getCell board row col)

/-- One settled column (lines 113-116): the collected panels placed at the
bottom in their original relative order (`newBoard[boardSize-1-i][col] =
columnPanels[columnPanels.length-1-i]`), empties on top. -/
def settledColumn (boardSize : Nat) (ps : List Nat) : List Panel :=
  List.replicate (boardSize - ps.length) none ++ ps.map some

/-- Pass 1 of `applyGravity` (lines 102-117), one settled column per
original column, kept column-major. -/
def pass1Cols (board : GameBoard) (boardSize : Nat) : List (List Panel) :=
  (List.range boardSize).map (fun col => settledColumn boardSize (columnPanels board boardSize col))

/-- `hasPanel` test of pass 2 (lines 124-131). -/
def hasPanel (col : List Panel) : Bool :=
  col.any (fun p => p.isSome)

/-- Pass 2 of `applyGravity` (lines 119-139): columns containing a panel
are reassigned contiguously from column `0` in order; the remaining
columns of the fresh `finalBoard` stay entirely empty. -/
def finalCols (board : GameBoard) (boardSize : Nat) : List (List Panel) :=
  let kept := (pass1Cols board boardSize).filter hasPanel
  kept ++ List.replicate (boardSize - kept.length) (List.replicate boardSize none)

/-- `applyGravity` (lines 101-142), assembling the column-major result of
the two passes back into a row-major board. -/
def applyGravity (board : GameBoard) (boardSize : Nat) : GameBoard :=
  mkBoard boardSize (fun row col => ((finalCols board boardSize).getD col []).getD row none)

theorem length_columnPanels_le (board : GameBoard) (n c : Nat) :
    (columnPanels board n c).length ≤ n := by
  calc (columnPanels board n c).length ≤ (List.range n).length :=
        List.length_filterMap_le _ _
    _ = n := List.length_range n

theorem filterMap_id_map_some (ps : List Nat) :
    (ps.map some).filterMap id = ps := by
  induction ps with
  | nil => rfl
  | cons x xs ih => simp [ih]

theorem filterMap_id_replicate_none (k : Nat) :
    (List.replicate k (none : Panel)).filterMap id = [] := by
  induction k with
  | zero => rfl
  | succ m ih => simp [List.replicate_succ, ih]

theorem filterMap_id_settledColumn (n : Nat) (ps : List Nat) :
    (settledColumn n ps).filterMap id = ps := by
  unfold settledColumn
  rw [List.filterMap_append, filterMap_id_replicate_none, filterMap_id_map_some,
    List.nil_append]

theorem length_settledColumn {n : Nat} {ps : List Nat} (h : ps.length ≤ n) :
    (settledColumn n ps).length = n := by
  unfold settledColumn
  rw [List.length_append, List.length_replicate, List.length_map]
  omega

theorem length_keptCols_le (board : GameBoard) (n : Nat) :
    ((pass1Cols board n).filter hasPanel).length ≤ n := by
  calc ((pass1Cols board n).filter hasPanel).length ≤ (pass1Cols board n).length :=
        List.length_filter_le _ _
    _ = n := by simp [pass1Cols]

theorem length_finalCols (board : GameBoard) (n : Nat) :
    (finalCols board n).length = n := by
  unfold finalCols
  rw [List.length_append, List.length_replicate]
  have := length_keptCols_le board n
  omega

theorem settledColumn_of_mem_pass1 {board : GameBoard} {n : Nat} {col : List Panel}
    (h : col ∈ pass1Cols board n) :
    settledColumn n (col.filterMap id) = col ∧ (col.filterMap id).length ≤ n := by
  simp only [pass1Cols, List.mem_map] at h
  obtain ⟨c, _, rfl⟩ := h
  rw [filterMap_id_settledColumn]
  exact ⟨rfl, length_columnPanels_le board n c⟩

theorem length_of_mem_finalCols {board : GameBoard} {n : Nat} {col : List Panel}
    (h : col ∈ finalCols board n) : col.length = n := by
  unfold finalCols at h
  rcases List.mem_append.mp h with h' | h'
  · have h'' := List.mem_of_mem_filter h'
    obtain ⟨hset, hlen⟩ := settledColumn_of_mem_pass1 h''
    rw [← hset]
    exact length_settledColumn hlen
  · rw [List.eq_of_mem_replicate h']
    exact List.length_replicate n none

theorem getCell_applyGravity (board : GameBoard) {n r c : Nat}
    (hr : r < n) (hc : c < n) :
    getCell (applyGravity board n) r c = ((finalCols board n).getD c []).getD r none :=
  getCell_mkBoard _ n r c hr hc

theorem WF_applyGravity (board : GameBoard) (n : Nat) :
    WF (applyGravity board n) n :=
  WF_mkBoard _ n

theorem getD_mem_of_lt {α : Type} {l : List α} {i : Nat} (d : α) (h : i < l.length) :
    l.getD i d ∈ l := by
  rw [List.getD_eq_getElem _ _ h]
  exact List.getElem_mem h

theorem filterMap_congr_mem {α β : Type} :
    ∀ (l : List α) (f g : α → Option β), (∀ a ∈ l, f a = g a) →
      l.filterMap f = l.filterMap g := by
  intro l
  induction l with
  | nil => intro f g _; rfl
  | cons x xs ih =>
      intro f g h
      rw [List.filterMap_cons, List.filterMap_cons, h x (List.mem_cons_self _ _),
        ih f g (fun a ha => h a (List.mem_cons_of_mem _ ha))]

theorem filterMap_getD_range :
    ∀ col : List Panel,
      (List.range col.length).filterMap (fun r => col.getD r none) = col.filterMap id := by
  intro col
  induction col with
  | nil => rfl
  | cons a t ih =>
      show (List.range (t.length + 1)).filterMap _ = _
      rw [List.range_succ_eq_map, List.filterMap_cons, List.filterMap_map]
      have hcomp : ((fun r => (a :: t).getD r none) ∘ (fun i => i + 1))
          = fun r => t.getD r none := by
        funext r
        rfl
      rw [hcomp]
      cases a with
      | none => simpa using ih
      | some v => simpa using ih

/-- The columns of the gravity output, read back off the assembled board,
are exactly the stored `finalCols`. -/
theorem columnPanels_applyGravity (board : GameBoard) {n c : Nat} (hc : c < n) :
    columnPanels (applyGravity board n) n c = ((finalCols board n).getD c []).filterMap id := by
  unfold columnPanels
  have hlen : ((finalCols board n).getD c []).length = n :=
    length_of_mem_finalCols (getD_mem_of_lt [] (by rw [length_finalCols]; exact hc))
  have hcong : (List.range n).filterMap (fun row => getCell (applyGravity board n) row c)
      = (List.range n).filterMap (fun row => ((finalCols board n).getD c []).getD row none) := by
    apply filterMap_congr_mem
    intro r hr
    exact getCell_applyGravity board (List.mem_range.mp hr) hc
  have hfmr := filterMap_getD_range ((finalCols board n).getD c [])
  rw [hlen] at hfmr
  rw [hcong, hfmr]

/-! ### Gravity is idempotent -/

theorem hasPanel_replicate_none (n : Nat) :
    hasPanel (List.replicate n (none : Panel)) = false := by
  unfold hasPanel
  rw [List.any_eq_false]
  intro p hp
  rw [List.eq_of_mem_replicate hp]
  simp

theorem settledColumn_nil (n : Nat) :
    settledColumn n [] = List.replicate n (none : Panel) := by
  unfold settledColumn
  simp

theorem settled_of_mem_finalCols {board : GameBoard} {n : Nat} {col : List Panel}
    (h : col ∈ finalCols board n) :
    settledColumn n (col.filterMap id) = col := by
  unfold finalCols at h
  rcases List.mem_append.mp h with h' | h'
  · exact (settledColumn_of_mem_pass1 (List.mem_of_mem_filter h')).1
  · rw [List.eq_of_mem_replicate h', filterMap_id_replicate_none, settledColumn_nil]

theorem pass1Cols_applyGravity (board : GameBoard) (n : Nat) :
    pass1Cols (applyGravity board n) n = finalCols board n := by
  apply List.ext_getElem
  · simp [pass1Cols, length_finalCols]
  · intro i h1 h2
    have hin : i < n := by simpa [pass1Cols] using h1
    have hleft : (pass1Cols (applyGravity board n) n)[i]
        = settledColumn n (columnPanels (applyGravity board n) n i) := by
      simp [pass1Cols]
    rw [hleft, columnPanels_applyGravity board hin]
    have hgetD : (finalCols board n).getD i [] = (finalCols board n)[i] :=
      List.getD_eq_getElem _ _ h2
    rw [hgetD]
    exact settled_of_mem_finalCols (List.getElem_mem h2)

theorem filter_hasPanel_finalCols (board : GameBoard) (n : Nat) :
    (finalCols board n).filter hasPanel = (pass1Cols board n).filter hasPanel := by
  unfold finalCols
  rw [List.filter_append]
  have h1 : ((pass1Cols board n).filter hasPanel).filter hasPanel
      = (pass1Cols board n).filter hasPanel :=
    List.filter_eq_self.mpr (fun a ha => List.of_mem_filter ha)
  have h2 : (List.replicate (n - ((pass1Cols board n).filter hasPanel).length)
      (List.replicate n (none : Panel))).filter hasPanel = [] := by
    apply List.filter_eq_nil_iff.mpr
    intro a ha
    rw [List.eq_of_mem_replicate ha, hasPanel_replicate_none]
    simp
  rw [h1, h2, List.append_nil]

theorem finalCols_applyGravity (board : GameBoard) (n : Nat) :
    finalCols (applyGravity board n) n = finalCols board n := by
  conv_lhs => rw [finalCols]
  rw [pass1Cols_applyGravity, filter_hasPanel_finalCols]
  conv_rhs => rw [finalCols]

/-- Gravity is idempotent: compacting a compacted board is a no-op. -/
theorem applyGravity_idem (board : GameBoard) (n : Nat) :
    applyGravity (applyGravity board n) n = applyGravity board n := by
  have h := finalCols_applyGravity board n
  calc applyGravity (applyGravity board n) n
      = mkBoard n (fun row col =>
          ((finalCols (applyGravity board n) n).getD col []).getD row none) := rfl
    _ = mkBoard n (fun row col =>
          ((finalCols board n).getD col []).getD row none) := by rw [h]
    _ = applyGravity board n := rfl

/-! ### The multiset of tile values on a board -/

/-- The (zero-or-one-element) multiset of values of a cell. -/
def cellVals : Panel → Multiset Nat
  | none => 0
  | some v => {v}

/-- The multiset of all tile values on the `boardSize × boardSize` board. -/
def boardVals (board : GameBoard) (boardSize : Nat) : Multiset Nat :=
  ∑ row in Finset.range boardSize, ∑ col in Finset.range boardSize,
    cellVals (getCell board row col)

theorem mem_cellVals {p : Panel} {x : Nat} : x ∈ cellVals p ↔ p = some x := by
  cases p <;> simp [cellVals, eq_comm]

theorem sum_range_getD {M α : Type} [AddCommMonoid M] (d : α) (f : α → M) :
    ∀ l : List α, ∑ i in Finset.range l.length, f (l.getD i d) = (l.map f).sum := by
  intro l
  induction l with
  | nil => simp
  | cons a t ih =>
      rw [show (a :: t).length = t.length + 1 from rfl, Finset.sum_range_succ']
      have hstep : ∀ i, (a :: t).getD (i + 1) d = t.getD i d := fun i => rfl
      simp only [hstep]
      rw [ih]
      show (t.map f).sum + f a = ((a :: t).map f).sum
      rw [List.map_cons, List.sum_cons, add_comm]

theorem sum_range_cellVals (f : Nat → Panel) :
    ∀ n, ∑ i in Finset.range n, cellVals (f i) = (((List.range n).filterMap f : List Nat) : Multiset Nat) := by
  intro n
  induction n with
  | zero => simp
  | succ m ih =>
      rw [Finset.sum_range_succ, ih, List.range_succ, List.filterMap_append]
      cases hf : f m with
      | none => simp [cellVals, hf]
      | some v =>
          have hfm : List.filterMap f [m] = [v] := by
            simp [List.filterMap_cons, hf]
          rw [hfm, ← Multiset.coe_add]
          simp [cellVals]

theorem boardVals_eq_cols (board : GameBoard) (n : Nat) :
    boardVals board n = ∑ c in Finset.range n, ((columnPanels board n c : List Nat) : Multiset Nat) := by
  unfold boardVals
  rw [Finset.sum_comm]
  apply Finset.sum_congr rfl
  intro c _
  exact sum_range_cellVals (fun r => getCell board r c) n

theorem filterMap_id_eq_nil_of_hasPanel_false {col : List Panel}
    (h : hasPanel col = false) : col.filterMap id = [] := by
  have h' : ∀ p ∈ col, ¬(p.isSome = true) := by
    simpa [hasPanel, List.any_eq_true] using h
  apply List.filterMap_eq_nil_iff.mpr
  intro a ha
  cases a with
  | none => rfl
  | some v => exact absurd rfl (h' (some v) ha)

theorem sum_colVals_filter_hasPanel :
    ∀ cols : List (List Panel),
      ((cols.filter hasPanel).map (fun col => ((col.filterMap id : List Nat) : Multiset Nat))).sum
        = (cols.map (fun col => ((col.filterMap id : List Nat) : Multiset Nat))).sum := by
  intro cols
  induction cols with
  | nil => rfl
  | cons a t ih =>
      by_cases h : hasPanel a
      · rw [List.filter_cons_of_pos h, List.map_cons, List.sum_cons,
          List.map_cons, List.sum_cons, ih]
      · rw [List.filter_cons_of_neg (by simpa using h), List.map_cons, List.sum_cons, ih,
          filterMap_id_eq_nil_of_hasPanel_false (by simpa using h)]
        simp

/-- Gravity conserves the multiset of tile values on the board. -/
theorem boardVals_applyGravity (board : GameBoard) (n : Nat) :
    boardVals (applyGravity board n) n = boardVals board n := by
  rw [boardVals_eq_cols, boardVals_eq_cols]
  have h1 : ∀ c ∈ Finset.range n,
      ((columnPanels (applyGravity board n) n c : List Nat) : Multiset Nat)
        = ((((finalCols board n).getD c []).filterMap id : List Nat) : Multiset Nat) := by
    intro c hc
    rw [columnPanels_applyGravity board (Finset.mem_range.mp hc)]
  rw [Finset.sum_congr rfl h1]
  have h2 := sum_range_getD ([] : List Panel)
    (fun col => ((col.filterMap id : List Nat) : Multiset Nat)) (finalCols board n)
  rw [length_finalCols] at h2
  rw [h2]
  conv_lhs => rw [finalCols]
  rw [List.map_append, List.sum_append]
  have h3 : ((List.replicate (n - ((pass1Cols board n).filter hasPanel).length)
      (List.replicate n (none : Panel))).map
        (fun col => ((col.filterMap id : List Nat) : Multiset Nat))).sum = 0 := by
    rw [List.map_replicate, filterMap_id_replicate_none]
    simp
  rw [h3, add_zero, sum_colVals_filter_hasPanel]
  have h5 := sum_range_getD ([] : List Panel)
    (fun col => ((col.filterMap id : List Nat) : Multiset Nat)) (pass1Cols board n)
  rw [show (pass1Cols board n).length = n by simp [pass1Cols]] at h5
  rw [← h5]
  apply Finset.sum_congr rfl
  intro c hc
  have hcol : (pass1Cols board n).getD c [] = settledColumn n (columnPanels board n c) := by
    unfold pass1Cols
    exact getD_range_map _ _ n c (Finset.mem_range.mp hc)
  rw [hcol, filterMap_id_settledColumn]

/-! ### Shape of settled columns -/

theorem settledColumn_getD_top {n : Nat} {ps : List Nat} {r : Nat}
    (hr : r < n - ps.length) : (settledColumn n ps).getD r none = none := by
  unfold settledColumn
  rw [List.getD_append _ _ _ _ (by rw [List.length_replicate]; exact hr)]
  rw [List.getD_eq_getElem _ _ (by rw [List.length_replicate]; exact hr)]
  simp

theorem settledColumn_getD_bottom {n : Nat} {ps : List Nat} (hlen : ps.length ≤ n)
    {r : Nat} (h1 : n - ps.length ≤ r) (h2 : r < n) :
    (settledColumn n ps).getD r none = some (ps.getD (r - (n - ps.length)) 0) := by
  unfold settledColumn
  rw [List.getD_append_right _ _ _ _ (by rw [List.length_replicate]; exact h1)]
  rw [List.length_replicate]
  have hidx : r - (n - ps.length) < ps.length := by omega
  rw [List.getD_eq_getElem _ _ (by rw [List.length_map]; exact hidx)]
  rw [List.getElem_map]
  rw [List.getD_eq_getElem _ _ hidx]

/-- The column `c` of the compacted board: it is some settled column whose
panel list is non-empty exactly when `c` is one of the kept columns. -/
theorem finalCols_getD_shape (board : GameBoard) {n c : Nat} (hc : c < n) :
    ∃ ps : List Nat, ps.length ≤ n ∧ (finalCols board n).getD c [] = settledColumn n ps ∧
      (c < ((pass1Cols board n).filter hasPanel).length ↔ ps ≠ []) := by
  unfold finalCols
  by_cases hck : c < ((pass1Cols board n).filter hasPanel).length
  · rw [List.getD_append _ _ _ _ hck]
    have hmem : ((pass1Cols board n).filter hasPanel).getD c [] ∈
        (pass1Cols board n).filter hasPanel := getD_mem_of_lt [] hck
    have hmem' := List.mem_of_mem_filter hmem
    obtain ⟨hset, hlen⟩ := settledColumn_of_mem_pass1 hmem'
    refine ⟨(((pass1Cols board n).filter hasPanel).getD c []).filterMap id, hlen,
      hset.symm, ?_⟩
    constructor
    · intro _ hnil
      have hcol : ((pass1Cols board n).filter hasPanel).getD c []
          = List.replicate n (none : Panel) := by
        rw [← hset, hnil, settledColumn_nil]
      have hhp : hasPanel (((pass1Cols board n).filter hasPanel).getD c []) = true :=
        List.of_mem_filter hmem
      rw [hcol, hasPanel_replicate_none] at hhp
      exact Bool.false_ne_true hhp
    · intro _
      exact hck
  · rw [List.getD_append_right _ _ _ _ (by omega)]
    refine ⟨[], by simp, ?_, by simp [hck]⟩
    rw [settledColumn_nil]
    have hidx : c - ((pass1Cols board n).filter hasPanel).length
        < n - ((pass1Cols board n).filter hasPanel).length := by
      have := length_keptCols_le board n
      omega
    rw [List.getD_eq_getElem _ _ (by rw [List.length_replicate]; exact hidx)]
    simp

/-! ### Membership in `boardVals` -/

theorem mem_sum_range {f : Nat → Multiset Nat} :
    ∀ n x, x ∈ (∑ i in Finset.range n, f i) ↔ ∃ i, i < n ∧ x ∈ f i := by
  intro n
  induction n with
  | zero => intro x; simp
  | succ m ih =>
      intro x
      rw [Finset.sum_range_succ, Multiset.mem_add, ih x]
      constructor
      · rintro (⟨i, hi, hx⟩ | hx)
        · exact ⟨i, Nat.lt_succ_of_lt hi, hx⟩
        · exact ⟨m, Nat.lt_succ_self m, hx⟩
      · rintro ⟨i, hi, hx⟩
        rcases Nat.lt_succ_iff_lt_or_eq.mp hi with hi' | rfl
        · exact Or.inl ⟨i, hi', hx⟩
        · exact Or.inr hx

theorem mem_boardVals {board : GameBoard} {n x : Nat} :
    x ∈ boardVals board n ↔ ∃ r c, r < n ∧ c < n ∧ getCell board r c = some x := by
  unfold boardVals
  rw [mem_sum_range]
  constructor
  · rintro ⟨r, hr, hx⟩
    rw [mem_sum_range] at hx
    obtain ⟨c, hc, hx⟩ := hx
    exact ⟨r, c, hr, hc, mem_cellVals.mp hx⟩
  · rintro ⟨r, c, hr, hc, hx⟩
    exact ⟨r, hr, (mem_sum_range n x).mpr ⟨c, hc, mem_cellVals.mpr hx⟩⟩

/-! ### Bottom-contiguity and left-fullness of the compacted board -/

theorem applyGravity_contiguous (board : GameBoard) (n : Nat) :
    ∀ c r r', c < n → r ≤ r' → r' < n →
      getCell (applyGravity board n) r c ≠ none →
      getCell (applyGravity board n) r' c ≠ none := by
  intro c r r' hc hrr hr' hne
  have hr : r < n := lt_of_le_of_lt (le_of_eq rfl) (lt_of_le_of_lt hrr hr')
  obtain ⟨ps, hlen, hcol, -⟩ := finalCols_getD_shape board hc
  rw [getCell_applyGravity board hr hc, hcol] at hne
  rw [getCell_applyGravity board hr' hc, hcol]
  by_cases htop : r < n - ps.length
  · exact absurd (settledColumn_getD_top htop) hne
  · rw [settledColumn_getD_bottom hlen (by omega) hr']
    simp

theorem applyGravity_cols_mono (board : GameBoard) (n : Nat) :
    ∀ i j, i < j → j < n →
      (∃ r, r < n ∧ getCell (applyGravity board n) r j ≠ none) →
      ∃ r, r < n ∧ getCell (applyGravity board n) r i ≠ none := by
  intro i j hij hj hex
  obtain ⟨r, hr, hne⟩ := hex
  have hi : i < n := lt_trans hij hj
  obtain ⟨psj, hlenj, hcolj, hiffj⟩ := finalCols_getD_shape board hj
  obtain ⟨psi, hleni, hcoli, hiffi⟩ := finalCols_getD_shape board hi
  have hpsj : psj ≠ [] := by
    intro hnil
    rw [getCell_applyGravity board hr hj, hcolj, hnil, settledColumn_nil] at hne
    apply hne
    rw [List.getD_eq_getElem _ _ (by rw [List.length_replicate]; exact hr)]
    simp
  have hj' : j < ((pass1Cols board n).filter hasPanel).length := hiffj.mpr hpsj
  have hi' : i < ((pass1Cols board n).filter hasPanel).length := lt_trans hij hj'
  have hpsi : psi ≠ [] := hiffi.mp hi'
  have hpos : 0 < psi.length := List.length_pos.mpr hpsi
  refine ⟨n - 1, by omega, ?_⟩
  rw [getCell_applyGravity board (by omega) hi, hcoli]
  rw [settledColumn_getD_bottom hleni (by omega) (by omega)]
  simp

/-! ### Refill generator: `refillBoard` (lines 145-158) -/

/-- `refillBoard` (lines 145-158): every empty cell receives a freshly
drawn `getRandomNumber`; non-empty cells are copied unchanged.  (The
source copies the board and mutates the `null` entries of the copy; the
per-cell rebuild below produces the same `boardSize × boardSize` board,
every board passed to `refillBoard` by the source being exactly
`boardSize × boardSize`.) -/
def refillBoard (rand : Nat → Nat → Fin 3) (board : GameBoard) (boardSize : Nat) : GameBoard :=
  mkBoard boardSize (fun row col =>
    match getCell board row col with
    | none => some (getRandomNumber (rand row col))
    | some v => some v)

theorem getCell_refillBoard (rand : Nat → Nat → Fin 3) (board : GameBoard)
    {n r c : Nat} (hr : r < n) (hc : c < n) :
    getCell (refillBoard rand board n) r c =
      match getCell board r c with
      | none => some (getRandomNumber (rand r c))
      | some v => some v :=
  getCell_mkBoard _ n r c hr hc

theorem WF_refillBoard (rand : Nat → Nat → Fin 3) (board : GameBoard) (n : Nat) :
    WF (refillBoard rand board n) n :=
  WF_mkBoard _ n

theorem refillBoard_keeps (rand : Nat → Nat → Fin 3) {board : GameBoard} {n r c v : Nat}
    (hr : r < n) (hc : c < n) (hv : getCell board r c = some v) :
    getCell (refillBoard rand board n) r c = some v := by
  rw [getCell_refillBoard rand board hr hc, hv]

theorem refillBoard_fills (rand : Nat → Nat → Fin 3) {board : GameBoard} {n r c : Nat}
    (hr : r < n) (hc : c < n) (hempty : getCell board r c = none) :
    getCell (refillBoard rand board n) r c = some (getRandomNumber (rand r c)) := by
  rw [getCell_refillBoard rand board hr hc, hempty]

theorem refillBoard_total (rand : Nat → Nat → Fin 3) (board : GameBoard) {n r c : Nat}
    (hr : r < n) (hc : c < n) :
    getCell (refillBoard rand board n) r c ≠ none := by
  rw [getCell_refillBoard rand board hr hc]
  cases getCell board r c <;> simp

theorem getRandomNumber_cases :
    ∀ i : Fin 3, getRandomNumber i = 1 ∨ getRandomNumber i = 2 ∨ getRandomNumber i = 4 := by
  decide

/-- Refilling only adds values to the board's multiset, and every added
value is drawn from the base set. -/
theorem boardVals_refillBoard (rand : Nat → Nat → Fin 3) (board : GameBoard) (n : Nat) :
    ∃ R : Multiset Nat,
      boardVals (refillBoard rand board n) n = boardVals board n + R ∧
      ∀ x ∈ R, x = 1 ∨ x = 2 ∨ x = 4 := by
  refine ⟨∑ r in Finset.range n, ∑ c in Finset.range n,
    (match getCell board r c with
     | none => ({getRandomNumber (rand r c)} : Multiset Nat)
     | some _ => 0), ?_, ?_⟩
  · unfold boardVals
    rw [← Finset.sum_add_distrib]
    apply Finset.sum_congr rfl
    intro r hr
    rw [← Finset.sum_add_distrib]
    apply Finset.sum_congr rfl
    intro c hc
    rw [getCell_refillBoard rand board (Finset.mem_range.mp hr) (Finset.mem_range.mp hc)]
    cases hcell : getCell board r c with
    | none => simp [cellVals]
    | some v => simp [cellVals]
  · intro x hx
    obtain ⟨r, hr, hx⟩ := (mem_sum_range n x).mp hx
    obtain ⟨c, hc, hx⟩ := (mem_sum_range n x).mp hx
    cases hcell : getCell board r c with
    | none =>
        rw [hcell] at hx
        rw [Multiset.mem_singleton.mp hx]
        exact getRandomNumber_cases (rand r c)
    | some v =>
        rw [hcell] at hx
        simp at hx

/-! ### `Math.max(...)` / `Math.min(...)` over a non-empty list -/

/-- `Math.max(...l)` for the non-empty lists the source applies it to
(the `[]` value is arbitrary: `Math.max()` of no arguments is never taken
on the success path). -/
def listMax : List Nat → Nat
  | [] => 0
  | x :: xs => xs.foldl Nat.max x

/-- `Math.min(...l)`, same proviso as `listMax`. -/
def listMin : List Nat → Nat
  | [] => 0
  | x :: xs => xs.foldl Nat.min x

theorem foldl_max_mem : ∀ (xs : List Nat) (x : Nat),
    xs.foldl Nat.max x = x ∨ xs.foldl Nat.max x ∈ xs := by
  intro xs
  induction xs with
  | nil => intro x; exact Or.inl rfl
  | cons y ys ih =>
      intro x
      rcases ih (Nat.max x y) with h | h
      · have hchoice : Nat.max x y = x ∨ Nat.max x y = y := by
          rcases Nat.le_total x y with h' | h'
          · exact Or.inr (Nat.max_eq_right h')
          · exact Or.inl (Nat.max_eq_left h')
        rcases hchoice with hm | hm
        · rw [List.foldl_cons, h, hm]
          exact Or.inl rfl
        · rw [List.foldl_cons, h, hm]
          exact Or.inr (List.mem_cons_self _ _)
      · exact Or.inr (List.mem_cons_of_mem _ h)

theorem le_foldl_max : ∀ (xs : List Nat) (x : Nat), x ≤ xs.foldl Nat.max x := by
  intro xs
  induction xs with
  | nil => intro x; exact le_refl x
  | cons y ys ih =>
      intro x
      exact le_trans (Nat.le_max_left x y) (ih (Nat.max x y))

theorem foldl_max_ge : ∀ (xs : List Nat) (x y : Nat), y ∈ xs → y ≤ xs.foldl Nat.max x := by
  intro xs
  induction xs with
  | nil => intro x y hy; simp at hy
  | cons z zs ih =>
      intro x y hy
      rcases List.mem_cons.mp hy with rfl | hy'
      · exact le_trans (Nat.le_max_right x y) (le_foldl_max zs (Nat.max x y))
      · exact ih (Nat.max x z) y hy'

theorem listMax_mem {l : List Nat} (h : l ≠ []) : listMax l ∈ l := by
  cases l with
  | nil => exact absurd rfl h
  | cons x xs =>
      rcases foldl_max_mem xs x with h' | h'
      · rw [listMax, h']
        exact List.mem_cons_self _ _
      · exact List.mem_cons_of_mem _ h'

theorem listMax_ge {l : List Nat} : ∀ y ∈ l, y ≤ listMax l := by
  intro y hy
  cases l with
  | nil => simp at hy
  | cons x xs =>
      rcases List.mem_cons.mp hy with rfl | hy'
      · exact le_foldl_max xs y
      · exact foldl_max_ge xs x y hy'

theorem foldl_min_mem : ∀ (xs : List Nat) (x : Nat),
    xs.foldl Nat.min x = x ∨ xs.foldl Nat.min x ∈ xs := by
  intro xs
  induction xs with
  | nil => intro x; exact Or.inl rfl
  | cons y ys ih =>
      intro x
      rcases ih (Nat.min x y) with h | h
      · have hchoice : Nat.min x y = x ∨ Nat.min x y = y := by
          rcases Nat.le_total x y with h' | h'
          · exact Or.inl (Nat.min_eq_left h')
          · exact Or.inr (Nat.min_eq_right h')
        rcases hchoice with hm | hm
        · rw [List.foldl_cons, h, hm]
          exact Or.inl rfl
        · rw [List.foldl_cons, h, hm]
          exact Or.inr (List.mem_cons_self _ _)
      · exact Or.inr (List.mem_cons_of_mem _ h)

theorem foldl_min_le : ∀ (xs : List Nat) (x : Nat), xs.foldl Nat.min x ≤ x := by
  intro xs
  induction xs with
  | nil => intro x; exact le_refl x
  | cons y ys ih =>
      intro x
      exact le_trans (ih (Nat.min x y)) (Nat.min_le_left x y)

theorem foldl_min_le_mem : ∀ (xs : List Nat) (x y : Nat), y ∈ xs → xs.foldl Nat.min x ≤ y := by
  intro xs
  induction xs with
  | nil => intro x y hy; simp at hy
  | cons z zs ih =>
      intro x y hy
      rcases List.mem_cons.mp hy with rfl | hy'
      · exact le_trans (foldl_min_le zs (Nat.min x y)) (Nat.min_le_right x y)
      · exact ih (Nat.min x z) y hy'

theorem listMin_mem {l : List Nat} (h : l ≠ []) : listMin l ∈ l := by
  cases l with
  | nil => exact absurd rfl h
  | cons x xs =>
      rcases foldl_min_mem xs x with h' | h'
      · rw [listMin, h']
        exact List.mem_cons_self _ _
      · exact List.mem_cons_of_mem _ h'

theorem listMin_le {l : List Nat} : ∀ y ∈ l, listMin l ≤ y := by
  intro y hy
  cases l with
  | nil => simp at hy
  | cons x xs =>
      rcases List.mem_cons.mp hy with rfl | hy'
      · exact foldl_min_le xs y
      · exact foldl_min_le_mem xs x y hy'

/-! ### The merge step of a move (lines 263-280 of `handlePanelClick`,
duplicated verbatim at lines 174-191 of the auto-mode effect) -/

/-- Clearing the connected panels (lines 273-276,
`connectedPanels.forEach(([r, c]) => { newBoard[r][c] = null; })`). -/
def clearPanels (board : GameBoard) (panels : List (Nat × Nat)) : GameBoard :=
  panels.foldl (fun bd p => setCell bd p.1 p.2 none) board

/-- The destination cell of the merged tile (lines 266-271): the maximum
row among the connected panels, and the minimum column among the connected
panels in that row. -/
def mergeDest (board : GameBoard) (boardSize row col : Nat) : Nat × Nat :=
  let connectedPanels := findConnectedPanels board row col boardSize
  let maxRow := listMax (connectedPanels.map Prod.fst)
  (maxRow, listMin ((connectedPanels.filter (fun p => p.1 == maxRow)).map Prod.snd))

/-- The board immediately after the merge, before gravity (lines 263-280):
the connected panels are cleared and the doubled value is written to the
destination cell. -/
def mergeBoard (board : GameBoard) (boardSize row col : Nat) : GameBoard :=
  let d := mergeDest board boardSize row col
  setCell (clearPanels board (findConnectedPanels board row col boardSize))
    d.1 d.2 (some (2 * (getCell board row col).getD 0))

/-! ### How one cell update changes the board multiset -/

theorem boardVals_update {b b' : GameBoard} {n r c : Nat} (hr : r < n) (hc : c < n)
    (hoff : ∀ r' c', r' < n → c' < n → ¬(r' = r ∧ c' = c) →
      getCell b' r' c' = getCell b r' c') :
    boardVals b' n + cellVals (getCell b r c) = boardVals b n + cellVals (getCell b' r c) := by
  unfold boardVals
  have hsplitB' := (Finset.add_sum_erase (Finset.range n)
    (fun row => ∑ col in Finset.range n, cellVals (getCell b' row col))
    (Finset.mem_range.mpr hr)).symm
  have hsplitB := (Finset.add_sum_erase (Finset.range n)
    (fun row => ∑ col in Finset.range n, cellVals (getCell b row col))
    (Finset.mem_range.mpr hr)).symm
  rw [hsplitB', hsplitB]
  have houter : ∑ row in (Finset.range n).erase r,
      ∑ col in Finset.range n, cellVals (getCell b' row col)
      = ∑ row in (Finset.range n).erase r,
        ∑ col in Finset.range n, cellVals (getCell b row col) := by
    apply Finset.sum_congr rfl
    intro r' hr'
    apply Finset.sum_congr rfl
    intro c' hc'
    rw [hoff r' c' (Finset.mem_range.mp (Finset.mem_of_mem_erase hr'))
      (Finset.mem_range.mp hc') (fun hand => (Finset.ne_of_mem_erase hr') hand.1)]
  rw [houter]
  have hinner' : ∑ col in Finset.range n, cellVals (getCell b' r col)
      = cellVals (getCell b' r c) + ∑ col in (Finset.range n).erase c,
          cellVals (getCell b' r col) :=
    (Finset.add_sum_erase _ _ (Finset.mem_range.mpr hc)).symm
  have hinner : ∑ col in Finset.range n, cellVals (getCell b r col)
      = cellVals (getCell b r c) + ∑ col in (Finset.range n).erase c,
          cellVals (getCell b r col) :=
    (Finset.add_sum_erase _ _ (Finset.mem_range.mpr hc)).symm
  rw [hinner', hinner]
  have hmid : ∑ col in (Finset.range n).erase c, cellVals (getCell b' r col)
      = ∑ col in (Finset.range n).erase c, cellVals (getCell b r col) := by
    apply Finset.sum_congr rfl
    intro c' hc'
    rw [hoff r c' hr (Finset.mem_range.mp (Finset.mem_of_mem_erase hc'))
      (fun hand => (Finset.ne_of_mem_erase hc') hand.2)]
  rw [hmid]
  abel

theorem boardVals_clear_cell {b : GameBoard} {n r c v : Nat} (hWF : WF b n)
    (hr : r < n) (hc : c < n) (hv : getCell b r c = some v) :
    boardVals b n = boardVals (setCell b r c none) n + {v} := by
  have h : boardVals (setCell b r c none) n + cellVals (getCell b r c)
      = boardVals b n + cellVals (getCell (setCell b r c none) r c) :=
    boardVals_update hr hc (fun r' c' _ _ hne => getCell_setCell_ne hne none)
  rw [hv, getCell_setCell_self hWF hr hc] at h
  simp only [cellVals] at h
  rw [add_zero] at h
  exact h.symm

theorem boardVals_fill_cell {b : GameBoard} {n r c : Nat} (hWF : WF b n)
    (hr : r < n) (hc : c < n) (w : Nat) (hnone : getCell b r c = none) :
    boardVals (setCell b r c (some w)) n = boardVals b n + {w} := by
  have h : boardVals (setCell b r c (some w)) n + cellVals (getCell b r c)
      = boardVals b n + cellVals (getCell (setCell b r c (some w)) r c) :=
    boardVals_update hr hc (fun r' c' _ _ hne => getCell_setCell_ne hne (some w))
  rw [hnone, getCell_setCell_self hWF hr hc] at h
  simp only [cellVals] at h
  rw [add_zero] at h
  exact h

/-! ### Clearing the connected region -/

theorem clearPanels_spec {n : Nat} :
    ∀ (l : List (Nat × Nat)) (b : GameBoard), WF b n → (∀ p ∈ l, InBounds n p) →
      WF (clearPanels b l) n ∧
      ∀ r c, r < n → c < n →
        getCell (clearPanels b l) r c = if (r, c) ∈ l then none else getCell b r c := by
  intro l
  induction l with
  | nil =>
      intro b hWF _
      refine ⟨hWF, ?_⟩
      intro r c _ _
      simp [clearPanels]
  | cons p t ih =>
      intro b hWF hin
      obtain ⟨p1, p2⟩ := p
      have hp := hin (p1, p2) (List.mem_cons_self _ _)
      have hWF1 : WF (setCell b p1 p2 none) n := WF_setCell hWF p1 p2 none
      have hrec := ih (setCell b p1 p2 none) hWF1
        (fun q hq => hin q (List.mem_cons_of_mem _ hq))
      have hfold : clearPanels b ((p1, p2) :: t) = clearPanels (setCell b p1 p2 none) t := rfl
      refine ⟨by rw [hfold]; exact hrec.1, ?_⟩
      intro r c hr hc
      rw [hfold, hrec.2 r c hr hc]
      by_cases hmem : (r, c) ∈ t
      · rw [if_pos hmem, if_pos (List.mem_cons_of_mem _ hmem)]
      · rw [if_neg hmem]
        by_cases hpe : (r, c) = (p1, p2)
        · rw [if_pos (by rw [hpe]; exact List.mem_cons_self _ _)]
          have hr1 : r = p1 := congrArg Prod.fst hpe
          have hc1 : c = p2 := congrArg Prod.snd hpe
          subst hr1
          subst hc1
          exact getCell_setCell_self hWF hr hc none
        · rw [if_neg (by
            intro hmem'
            rcases List.mem_cons.mp hmem' with h' | h'
            · exact hpe h'
            · exact hmem h')]
          apply getCell_setCell_ne
          intro hand
          exact hpe (Prod.ext hand.1 hand.2)

theorem clearPanels_vals {n v : Nat} :
    ∀ (l : List (Nat × Nat)) (b : GameBoard), WF b n → l.Nodup →
      (∀ p ∈ l, InBounds n p ∧ getCell b p.1 p.2 = some v) →
      boardVals b n = boardVals (clearPanels b l) n + Multiset.replicate l.length v := by
  intro l
  induction l with
  | nil =>
      intro b _ _ _
      simp [clearPanels]
  | cons p t ih =>
      intro b hWF hnd hprop
      obtain ⟨p1, p2⟩ := p
      obtain ⟨⟨hp1, hp2⟩, hpv⟩ := hprop (p1, p2) (List.mem_cons_self _ _)
      have h1 : boardVals b n = boardVals (setCell b p1 p2 none) n + {v} :=
        boardVals_clear_cell hWF hp1 hp2 hpv
      have hWF1 : WF (setCell b p1 p2 none) n := WF_setCell hWF p1 p2 none
      have hprop1 : ∀ q ∈ t, InBounds n q ∧ getCell (setCell b p1 p2 none) q.1 q.2 = some v := by
        intro q hq
        obtain ⟨hqi, hqv⟩ := hprop q (List.mem_cons_of_mem _ hq)
        refine ⟨hqi, ?_⟩
        rw [getCell_setCell_ne ?_ none]
        · exact hqv
        · intro hand
          have hqp : q = (p1, p2) := Prod.ext hand.1 hand.2
          exact (List.nodup_cons.mp hnd).1 (hqp ▸ hq)
      have h2 := ih (setCell b p1 p2 none) hWF1 (List.nodup_cons.mp hnd).2 hprop1
      have hfold : clearPanels b ((p1, p2) :: t) = clearPanels (setCell b p1 p2 none) t := rfl
      rw [hfold, h1, h2]
      have hlen : ((p1, p2) :: t).length = t.length + 1 := rfl
      rw [hlen, Multiset.replicate_succ, ← Multiset.singleton_add]
      abel

/-! ### Properties of the merge destination and merged board -/

theorem mergeDest_spec {board : GameBoard} {n row col v : Nat}
    (hr : row < n) (hc : col < n) (hv : getCell board row col = some v) :
    mergeDest board n row col ∈ findConnectedPanels board row col n ∧
    (∀ p ∈ findConnectedPanels board row col n, p.1 ≤ (mergeDest board n row col).1) ∧
    (∀ p ∈ findConnectedPanels board row col n,
      p.1 = (mergeDest board n row col).1 → (mergeDest board n row col).2 ≤ p.2) := by
  have hseed := seed_mem_region hr hc hv
  have hnonempty : findConnectedPanels board row col n ≠ [] :=
    fun h => by rw [h] at hseed; exact List.not_mem_nil _ hseed
  have hmapne : (findConnectedPanels board row col n).map Prod.fst ≠ [] := by
    intro h
    exact hnonempty (List.map_eq_nil_iff.mp h)
  have hmaxmem := listMax_mem hmapne
  rw [List.mem_map] at hmaxmem
  obtain ⟨p0, hp0, hp0max⟩ := hmaxmem
  have hp0bot : p0 ∈ (findConnectedPanels board row col n).filter
      (fun p => p.1 == listMax ((findConnectedPanels board row col n).map Prod.fst)) := by
    rw [List.mem_filter]
    exact ⟨hp0, by rw [hp0max]; exact beq_self_eq_true _⟩
  have hbotne : ((findConnectedPanels board row col n).filter
      (fun p => p.1 == listMax ((findConnectedPanels board row col n).map Prod.fst))).map
        Prod.snd ≠ [] := by
    intro h
    rw [List.map_eq_nil_iff] at h
    rw [h] at hp0bot
    exact List.not_mem_nil _ hp0bot
  have hminmem := listMin_mem hbotne
  rw [List.mem_map] at hminmem
  obtain ⟨q, hq, hqmin⟩ := hminmem
  have hq' := List.mem_filter.mp hq
  have hqrow : q.1 = listMax ((findConnectedPanels board row col n).map Prod.fst) :=
    beq_iff_eq.mp hq'.2
  have hdq : mergeDest board n row col = q := by
    simp only [mergeDest]
    rw [← hqmin, ← hqrow]
  refine ⟨by rw [hdq]; exact hq'.1, ?_, ?_⟩
  · intro p hp
    rw [hdq, hqrow]
    exact listMax_ge p.1 (List.mem_map.mpr ⟨p, hp, rfl⟩)
  · intro p hp hprow
    rw [hdq, hqmin]
    apply listMin_le
    rw [List.mem_map]
    refine ⟨p, ?_, rfl⟩
    rw [List.mem_filter]
    refine ⟨hp, ?_⟩
    rw [hdq, hqrow] at hprow
    rw [hprow]
    exact beq_self_eq_true _

theorem WF_mergeBoard {board : GameBoard} {n row col v : Nat} (hWF : WF board n)
    (hr : row < n) (hc : col < n) (hv : getCell board row col = some v) :
    WF (mergeBoard board n row col) n := by
  unfold mergeBoard
  apply WF_setCell
  exact (clearPanels_spec (findConnectedPanels board row col n) board hWF
    (fun p hp => (region_cells hr hc hv p hp).1)).1

theorem getCell_mergeBoard_dest {board : GameBoard} {n row col v : Nat} (hWF : WF board n)
    (hr : row < n) (hc : col < n) (hv : getCell board row col = some v) :
    getCell (mergeBoard board n row col)
      (mergeDest board n row col).1 (mergeDest board n row col).2 = some (2 * v) := by
  obtain ⟨hdmem, -, -⟩ := mergeDest_spec hr hc hv
  have hdin := (region_cells hr hc hv _ hdmem).1
  unfold mergeBoard
  have hWFc := (clearPanels_spec (findConnectedPanels board row col n) board hWF
    (fun p hp => (region_cells hr hc hv p hp).1)).1
  rw [getCell_setCell_self hWFc hdin.1 hdin.2, hv]
  rfl

theorem getCell_mergeBoard_cleared {board : GameBoard} {n row col v : Nat} (hWF : WF board n)
    (hr : row < n) (hc : col < n) (hv : getCell board row col = some v) :
    ∀ p ∈ findConnectedPanels board row col n, p ≠ mergeDest board n row col →
      getCell (mergeBoard board n row col) p.1 p.2 = none := by
  intro p hp hpd
  have hpin := (region_cells hr hc hv p hp).1
  unfold mergeBoard
  rw [getCell_setCell_ne (fun hand => hpd (Prod.ext hand.1 hand.2)) _]
  rw [(clearPanels_spec (findConnectedPanels board row col n) board hWF
    (fun q hq => (region_cells hr hc hv q hq).1)).2 p.1 p.2 hpin.1 hpin.2]
  rw [if_pos (by rw [show (p.1, p.2) = p from rfl]; exact hp)]

theorem getCell_mergeBoard_other {board : GameBoard} {n row col v : Nat} (hWF : WF board n)
    (hr : row < n) (hc : col < n) (hv : getCell board row col = some v) :
    ∀ r' c', r' < n → c' < n → (r', c') ∉ findConnectedPanels board row col n →
      getCell (mergeBoard board n row col) r' c' = getCell board r' c' := by
  intro r' c' hr' hc' hnotin
  obtain ⟨hdmem, -, -⟩ := mergeDest_spec hr hc hv
  have hne : (r', c') ≠ mergeDest board n row col := by
    intro h
    exact hnotin (h ▸ hdmem)
  unfold mergeBoard
  rw [getCell_setCell_ne (fun hand => hne (Prod.ext hand.1 hand.2)) _]
  rw [(clearPanels_spec (findConnectedPanels board row col n) board hWF
    (fun q hq => (region_cells hr hc hv q hq).1)).2 r' c' hr' hc']
  rw [if_neg hnotin]

/-- The merge step removes the region's values and adds the doubled tile. -/
theorem boardVals_mergeBoard {board : GameBoard} {n row col v : Nat} (hWF : WF board n)
    (hr : row < n) (hc : col < n) (hv : getCell board row col = some v) :
    boardVals board n + {2 * v} = boardVals (mergeBoard board n row col) n +
      Multiset.replicate (findConnectedPanels board row col n).length v := by
  have hclear := clearPanels_vals (findConnectedPanels board row col n) board hWF
    (region_nodup hr hc hv)
    (fun p hp => ⟨(region_cells hr hc hv p hp).1, (region_cells hr hc hv p hp).2⟩)
  obtain ⟨hdmem, -, -⟩ := mergeDest_spec hr hc hv
  have hdin := (region_cells hr hc hv _ hdmem).1
  have hWFc := (clearPanels_spec (findConnectedPanels board row col n) board hWF
    (fun p hp => (region_cells hr hc hv p hp).1)).1
  have hdnone : getCell (clearPanels board (findConnectedPanels board row col n))
      (mergeDest board n row col).1 (mergeDest board n row col).2 = none := by
    rw [(clearPanels_spec (findConnectedPanels board row col n) board hWF
      (fun p hp => (region_cells hr hc hv p hp).1)).2 _ _ hdin.1 hdin.2]
    rw [if_pos (by
      rw [show ((mergeDest board n row col).1, (mergeDest board n row col).2)
        = mergeDest board n row col from rfl]
      exact hdmem)]
  have hfill : boardVals (mergeBoard board n row col) n =
      boardVals (clearPanels board (findConnectedPanels board row col n)) n + {2 * v} := by
    have hgetD : (getCell board row col).getD 0 = v := by rw [hv]; rfl
    unfold mergeBoard
    rw [hgetD]
    exact boardVals_fill_cell hWFc hdin.1 hdin.2 (2 * v) hdnone
  rw [hclear, hfill]
  abel

/-! ### The game state and the two move drivers -/

/-- The component state consumed by the claims: the board, the win flag and
the highlighted converted-panel position (lines 35-37). -/
structure GameState where
  board : GameBoard
  gameWon : Bool
  convertedPanelPosition : Option (Nat × Nat)
  deriving DecidableEq

/-- The converted-panel search after a move (lines 293-303, identically
lines 205-215 of the auto-mode effect): scan rows from the bottom and
columns from the left and report the first cell holding `newValue`. -/
def findConvertedPosition (finalBoard : GameBoard) (boardSize newValue : Nat) :
    Option (Nat × Nat) :=
  (List.range boardSize).reverse.findSome? (fun r =>
    (List.range boardSize).findSome? (fun c =>
      if getCell finalBoard r c = some newValue then some (r, c) else none))

/-- `handlePanelClick` (lines 240-312) as a state transformer (the auto-mode
bookkeeping on lines 243-247 and 308-311 only toggles the scheduling flag
and is outside the modelled state). -/
def handlePanelClick (rand : Nat → Nat → Fin 3) (s : GameState)
    (boardSize row col : Nat) : GameState :=
  if s.gameWon = true ∨ getCell s.board row col = none then s
  else if (findConnectedPanels s.board row col boardSize).length < 2 then s
  else
    let newValue := 2 * (getCell s.board row col).getD 0
    let finalBoard :=
      refillBoard rand (applyGravity (mergeBoard s.board boardSize row col) boardSize) boardSize
    { board := finalBoard,
      gameWon := s.gameWon || decide (newValue = TARGET_NUMBER),
      convertedPanelPosition := findConvertedPosition finalBoard boardSize newValue }

/-- One tick of the auto-mode effect (lines 161-223): the interval is only
scheduled while `isAutoMode && !gameWon` (line 162), scans for the first
clickable panel and performs the same move as `handlePanelClick`. -/
def autoStep (rand : Nat → Nat → Fin 3) (s : GameState) (boardSize : Nat) : GameState :=
  if s.gameWon = true then s
  else
    match findFirstClickablePanel s.board boardSize with
    | none => s
    | some (row, col) =>
        if (findConnectedPanels s.board row col boardSize).length < 2 then s
        else
          let newValue := 2 * (getCell s.board row col).getD 0
          let finalBoard :=
            refillBoard rand (applyGravity (mergeBoard s.board boardSize row col) boardSize)
              boardSize
          { board := finalBoard,
            gameWon := s.gameWon || decide (newValue = TARGET_NUMBER),
            convertedPanelPosition := findConvertedPosition finalBoard boardSize newValue }

/-- `resetGame` (lines 315-320). -/
def resetGame (rand : Nat → Nat → Fin 3) (boardSize : Nat) : GameState :=
  { board := generateInitialBoard rand boardSize, gameWon := false,
    convertedPanelPosition := none }

/-- `handleBoardSizeChange` (lines 323-329): the state after switching to
`newSize`. -/
def handleBoardSizeChange (rand : Nat → Nat → Fin 3) (newSize : Nat) : GameState :=
  { board := generateInitialBoard rand newSize, gameWon := false,
    convertedPanelPosition := none }

/-- The states reachable during play on a fixed board size: a fresh board,
then any interleaving of manual clicks and auto-mode ticks. -/
inductive Reachable (boardSize : Nat) : GameState → Prop
  | init (rand : Nat → Nat → Fin 3) :
      Reachable boardSize ⟨generateInitialBoard rand boardSize, false, none⟩
  | click (s : GameState) (rand : Nat → Nat → Fin 3) (row col : Nat) :
      Reachable boardSize s → Reachable boardSize (handlePanelClick rand s boardSize row col)
  | auto (s : GameState) (rand : Nat → Nat → Fin 3) :
      Reachable boardSize s → Reachable boardSize (autoStep rand s boardSize)

/-! ### Unfolding the two move drivers -/

theorem handlePanelClick_noop_won (rand : Nat → Nat → Fin 3) (s : GameState)
    (n row col : Nat) (hw : s.gameWon = true) :
    handlePanelClick rand s n row col = s := by
  unfold handlePanelClick
  rw [if_pos (Or.inl hw)]

theorem handlePanelClick_noop_empty (rand : Nat → Nat → Fin 3) (s : GameState)
    (n row col : Nat) (he : getCell s.board row col = none) :
    handlePanelClick rand s n row col = s := by
  unfold handlePanelClick
  rw [if_pos (Or.inr he)]

theorem handlePanelClick_noop_small (rand : Nat → Nat → Fin 3) (s : GameState)
    (n row col : Nat) (hl : (findConnectedPanels s.board row col n).length < 2) :
    handlePanelClick rand s n row col = s := by
  unfold handlePanelClick
  by_cases h1 : s.gameWon = true ∨ getCell s.board row col = none
  · rw [if_pos h1]
  · rw [if_neg h1, if_pos hl]

theorem handlePanelClick_success (rand : Nat → Nat → Fin 3) (s : GameState)
    (n row col : Nat) (hw : s.gameWon = false)
    (hne : getCell s.board row col ≠ none)
    (h2 : 2 ≤ (findConnectedPanels s.board row col n).length) :
    handlePanelClick rand s n row col =
      { board := refillBoard rand (applyGravity (mergeBoard s.board n row col) n) n,
        gameWon := decide (2 * (getCell s.board row col).getD 0 = TARGET_NUMBER),
        convertedPanelPosition := findConvertedPosition
          (refillBoard rand (applyGravity (mergeBoard s.board n row col) n) n) n
          (2 * (getCell s.board row col).getD 0) } := by
  unfold handlePanelClick
  rw [if_neg (by simp [hw, hne]), if_neg (by omega), hw]
  simp only [Bool.false_or]

theorem autoStep_noop_won (rand : Nat → Nat → Fin 3) (s : GameState) (n : Nat)
    (hw : s.gameWon = true) : autoStep rand s n = s := by
  unfold autoStep
  rw [if_pos hw]

theorem autoStep_noop_none (rand : Nat → Nat → Fin 3) (s : GameState) (n : Nat)
    (hf : findFirstClickablePanel s.board n = none) : autoStep rand s n = s := by
  unfold autoStep
  by_cases hw : s.gameWon = true
  · rw [if_pos hw]
  · rw [if_neg hw, hf]

theorem autoStep_success (rand : Nat → Nat → Fin 3) (s : GameState)
    (n row col : Nat) (hw : s.gameWon = false)
    (hf : findFirstClickablePanel s.board n = some (row, col))
    (h2 : 2 ≤ (findConnectedPanels s.board row col n).length) :
    autoStep rand s n =
      { board := refillBoard rand (applyGravity (mergeBoard s.board n row col) n) n,
        gameWon := decide (2 * (getCell s.board row col).getD 0 = TARGET_NUMBER),
        convertedPanelPosition := findConvertedPosition
          (refillBoard rand (applyGravity (mergeBoard s.board n row col) n) n) n
          (2 * (getCell s.board row col).getD 0) } := by
  unfold autoStep
  rw [if_neg (by simp [hw]), hf]
  dsimp only
  rw [if_neg (by omega), hw]
  simp only [Bool.false_or]

/-! ### Full characterisation of the auto-solver scan -/

theorem findFirstClickablePanel_none_iff (board : GameBoard) (n : Nat) :
    findFirstClickablePanel board n = none ↔
      ∀ r c, r < n → c < n →
        ¬(getCell board r c ≠ none ∧ 2 ≤ (findConnectedPanels board r c n).length) := by
  unfold findFirstClickablePanel
  rw [findSome?_revRange_none]
  constructor
  · intro h r c hr hc hcontra
    have h' := (findSome?_range_none _ n).mp (h r hr) c hc
    rw [if_pos (Option.isSome_iff_ne_none.mpr hcontra.1), if_pos hcontra.2] at h'
    exact Option.some_ne_none _ h'
  · intro h r hr
    rw [findSome?_range_none]
    intro c hc
    by_cases hne : (getCell board r c).isSome
    · by_cases h2 : 2 ≤ (findConnectedPanels board r c n).length
      · exact absurd ⟨Option.isSome_iff_ne_none.mp hne, h2⟩ (h r c hr hc)
      · rw [if_pos hne, if_neg h2]
    · rw [if_neg hne]

theorem findFirstClickablePanel_some_spec {board : GameBoard} {n r c : Nat}
    (h : findFirstClickablePanel board n = some (r, c)) :
    r < n ∧ c < n ∧ getCell board r c ≠ none ∧
    2 ≤ (findConnectedPanels board r c n).length ∧
    ∀ r' c', r' < n → c' < n → (r < r' ∨ (r' = r ∧ c' < c)) →
      ¬(getCell board r' c' ≠ none ∧ 2 ≤ (findConnectedPanels board r' c' n).length) := by
  unfold findFirstClickablePanel at h
  obtain ⟨i, hi, hfi, hafter⟩ := findSome?_revRange_some _ n _ h
  obtain ⟨j, hj, hfj, hbefore⟩ := findSome?_range_some _ n _ hfi
  by_cases hne : (getCell board i j).isSome
  · rw [if_pos hne] at hfj
    by_cases h2 : 2 ≤ (findConnectedPanels board i j n).length
    · rw [if_pos h2] at hfj
      have hijeq := Option.some.inj hfj
      have hir : i = r := congrArg Prod.fst hijeq
      have hjc : j = c := congrArg Prod.snd hijeq
      subst hir
      subst hjc
      refine ⟨hi, hj, Option.isSome_iff_ne_none.mp hne, h2, ?_⟩
      intro r' c' hr' hc' hord hcontra
      rcases hord with hgt | ⟨rfl, hlt⟩
      · have h' := (findSome?_range_none _ n).mp (hafter r' hgt hr') c' hc'
        rw [if_pos (Option.isSome_iff_ne_none.mpr hcontra.1), if_pos hcontra.2] at h'
        exact Option.some_ne_none _ h'
      · have h' := hbefore c' hlt
        rw [if_pos (Option.isSome_iff_ne_none.mpr hcontra.1), if_pos hcontra.2] at h'
        exact Option.some_ne_none _ h'
    · rw [if_neg h2] at hfj
      exact absurd hfj (by simp)
  · rw [if_neg hne] at hfj
    exact absurd hfj (by simp)

/-! ### Full characterisation of the converted-panel scan -/

theorem findConvertedPosition_none_iff (finalBoard : GameBoard) (n nv : Nat) :
    findConvertedPosition finalBoard n nv = none ↔
      ∀ r c, r < n → c < n → getCell finalBoard r c ≠ some nv := by
  unfold findConvertedPosition
  rw [findSome?_revRange_none]
  constructor
  · intro h r c hr hc hcontra
    have h' := (findSome?_range_none _ n).mp (h r hr) c hc
    rw [if_pos hcontra] at h'
    exact Option.some_ne_none _ h'
  · intro h r hr
    rw [findSome?_range_none]
    intro c hc
    rw [if_neg (h r c hr hc)]

theorem findConvertedPosition_some_spec {finalBoard : GameBoard} {n nv r c : Nat}
    (h : findConvertedPosition finalBoard n nv = some (r, c)) :
    r < n ∧ c < n ∧ getCell finalBoard r c = some nv ∧
    ∀ r' c', r' < n → c' < n → (r < r' ∨ (r' = r ∧ c' < c)) →
      getCell finalBoard r' c' ≠ some nv := by
  unfold findConvertedPosition at h
  obtain ⟨i, hi, hfi, hafter⟩ := findSome?_revRange_some _ n _ h
  obtain ⟨j, hj, hfj, hbefore⟩ := findSome?_range_some _ n _ hfi
  by_cases hcell : getCell finalBoard i j = some nv
  · rw [if_pos hcell] at hfj
    have hijeq := Option.some.inj hfj
    have hir : i = r := congrArg Prod.fst hijeq
    have hjc : j = c := congrArg Prod.snd hijeq
    subst hir
    subst hjc
    refine ⟨hi, hj, hcell, ?_⟩
    intro r' c' hr' hc' hord hcontra
    rcases hord with hgt | ⟨rfl, hlt⟩
    · have h' := (findSome?_range_none _ n).mp (hafter r' hgt hr') c' hc'
      rw [if_pos hcontra] at h'
      exact Option.some_ne_none _ h'
    · have h' := hbefore c' hlt
      rw [if_pos hcontra] at h'
      exact Option.some_ne_none _ h'
  · rw [if_neg hcell] at hfj
    exact absurd hfj (by simp)

/-! ### Provenance of cells through merge and gravity -/

theorem getCell_mergeBoard_cases {board : GameBoard} {n row col v : Nat} (hWF : WF board n)
    (hr : row < n) (hc : col < n) (hv : getCell board row col = some v) :
    ∀ r' c' w, r' < n → c' < n → getCell (mergeBoard board n row col) r' c' = some w →
      w = 2 * v ∨ getCell board r' c' = some w := by
  intro r' c' w hr' hc' hcell
  by_cases hmem : (r', c') ∈ findConnectedPanels board row col n
  · by_cases hd : (r', c') = mergeDest board n row col
    · left
      have hdest := getCell_mergeBoard_dest hWF hr hc hv
      rw [← hd] at hdest
      rw [hcell] at hdest
      exact Option.some.inj hdest
    · have hnone := getCell_mergeBoard_cleared hWF hr hc hv (r', c') hmem hd
      rw [hcell] at hnone
      exact absurd hnone (Option.some_ne_none _)
  · right
    rw [← getCell_mergeBoard_other hWF hr hc hv r' c' hr' hc' hmem]
    exact hcell

theorem getCell_applyGravity_exists {board : GameBoard} {n r c w : Nat}
    (hr : r < n) (hc : c < n) (h : getCell (applyGravity board n) r c = some w) :
    ∃ r' c', r' < n ∧ c' < n ∧ getCell board r' c' = some w := by
  have hmem : w ∈ boardVals (applyGravity board n) n :=
    mem_boardVals.mpr ⟨r, c, hr, hc, h⟩
  rw [boardVals_applyGravity] at hmem
  obtain ⟨r', c', hr', hc', h'⟩ := mem_boardVals.mp hmem
  exact ⟨r', c', hr', hc', h'⟩

theorem getCell_refillBoard_cases (rand : Nat → Nat → Fin 3) {board : GameBoard}
    {n r c w : Nat} (hr : r < n) (hc : c < n)
    (h : getCell (refillBoard rand board n) r c = some w) :
    getCell board r c = some w ∨ w = 1 ∨ w = 2 ∨ w = 4 := by
  rw [getCell_refillBoard rand board hr hc] at h
  cases hcell : getCell board r c with
  | none =>
      rw [hcell] at h
      right
      have hw : getRandomNumber (rand r c) = w := Option.some.inj h
      rw [← hw]
      exact getRandomNumber_cases (rand r c)
  | some u =>
      rw [hcell] at h
      left
      exact h

/-- A successful move always produces a board different from its input:
the doubled tile replaces at least two equal tiles, and the refill draws
only base values, so the multiset of tile values cannot be restored. -/
theorem success_changes_board (rand : Nat → Nat → Fin 3) {board : GameBoard}
    {n row col v : Nat} (hWF : WF board n) (hv : getCell board row col = some v)
    (h2 : 2 ≤ (findConnectedPanels board row col n).length) :
    refillBoard rand (applyGravity (mergeBoard board n row col) n) n ≠ board := by
  have hbounds := inBounds_of_getCell_ne_none hWF (by rw [hv]; simp)
  obtain ⟨hr, hc⟩ := hbounds
  intro heq
  have hM : boardVals (refillBoard rand (applyGravity (mergeBoard board n row col) n) n) n
      = boardVals board n := by rw [heq]
  obtain ⟨R, hR, hRmem⟩ :=
    boardVals_refillBoard rand (applyGravity (mergeBoard board n row col) n) n
  rw [boardVals_applyGravity] at hR
  have hmerge := boardVals_mergeBoard hWF hr hc hv
  have h1 : boardVals board n = boardVals (mergeBoard board n row col) n + R := by
    rw [← hM, hR]
  have hkey : R + {2 * v}
      = Multiset.replicate (findConnectedPanels board row col n).length v := by
    rw [h1, add_assoc] at hmerge
    exact add_left_cancel hmerge
  have hv0 : v = 0 := by
    have h2v : 2 * v ∈ Multiset.replicate (findConnectedPanels board row col n).length v := by
      rw [← hkey, Multiset.mem_add]
      exact Or.inr (Multiset.mem_singleton_self _)
    have := Multiset.eq_of_mem_replicate h2v
    omega
  have hcard : Multiset.card R + 1 = (findConnectedPanels board row col n).length := by
    have hcc := congrArg Multiset.card hkey
    rw [Multiset.card_add, Multiset.card_replicate, Multiset.card_singleton] at hcc
    exact hcc
  have hRne : R ≠ 0 := by
    intro h0
    rw [h0, Multiset.card_zero] at hcard
    omega
  obtain ⟨x, hx⟩ := Multiset.exists_mem_of_ne_zero hRne
  have hxv : x = v := Multiset.eq_of_mem_replicate
    (by rw [← hkey]; exact Multiset.mem_add.mpr (Or.inl hx))
  have hxbase := hRmem x hx
  omega

/-! ## The claims -/

/-- C2: for every board and in-range seed coordinate, `findConnectedPanels`
returns exactly the maximal 4-directionally-connected set of cells holding
the seed's value that contains the seed, with no coordinate appearing
twice; if the seed cell is empty it returns the empty set. -/
theorem claim_C2 (board : GameBoard) (n r c : Nat) (hr : r < n) (hc : c < n) :
    (getCell board r c = none → findConnectedPanels board r c n = []) ∧
    ∀ v, getCell board r c = some v →
      (findConnectedPanels board r c n).Nodup ∧
      (r, c) ∈ findConnectedPanels board r c n ∧
      ∀ p, p ∈ findConnectedPanels board r c n ↔
        InBounds n p ∧ getCell board p.1 p.2 = some v ∧ Reaches board n v (r, c) p := by
  refine ⟨fun h => findConnectedPanels_empty_seed board r c n h, fun v hv => ?_⟩
  exact ⟨region_nodup hr hc hv, seed_mem_region hr hc hv,
    (findConnectedPanels_main board n r c v hr hc hv).2⟩

theorem claim_C2_witness :
    (0, 1) ∈ findConnectedPanels [[some 1, some 1], [some 2, some 4]] 0 0 2 := by
  have h := (claim_C2 [[some 1, some 1], [some 2, some 4]] 2 0 0
    (by decide) (by decide)).2 1 (by decide)
  exact (h.2.2 (0, 1)).mpr ⟨by decide, by decide,
    Relation.ReflTransGen.single ⟨by decide, by decide, by decide⟩⟩

/-- C3: after `applyGravity` every column has its non-empty cells
contiguous at the bottom, and for every pair of columns `i < j`, if column
`j` contains a non-empty cell then column `i` does too. -/
theorem claim_C3 (board : GameBoard) (n : Nat) :
    (∀ c r r', c < n → r ≤ r' → r' < n →
      getCell (applyGravity board n) r c ≠ none →
      getCell (applyGravity board n) r' c ≠ none) ∧
    (∀ i j, i < j → j < n →
      (∃ r, r < n ∧ getCell (applyGravity board n) r j ≠ none) →
      ∃ r, r < n ∧ getCell (applyGravity board n) r i ≠ none) :=
  ⟨applyGravity_contiguous board n, applyGravity_cols_mono board n⟩

theorem claim_C3_witness :
    getCell (applyGravity [[some 1, none], [none, some 2]] 2) 1 0 ≠ none :=
  (claim_C3 [[some 1, none], [none, some 2]] 2).1 0 1 1
    (by decide) (by decide) (by decide) (by decide)

/-- C4: `applyGravity` preserves the multiset of non-empty values on the
board (only positions change), and applying it twice gives the same board
as applying it once. -/
theorem claim_C4 (board : GameBoard) (n : Nat) :
    boardVals (applyGravity board n) n = boardVals board n ∧
    applyGravity (applyGravity board n) n = applyGravity board n :=
  ⟨boardVals_applyGravity board n, applyGravity_idem board n⟩

/-- C5: after `refillBoard` no empty cell remains, every previously
non-empty cell's value is unchanged, and every newly filled cell holds a
value sampled from the base set `{1, 2, 4}` (`INITIAL_NUMBERS`). -/
theorem claim_C5 (rand : Nat → Nat → Fin 3) (board : GameBoard) (n : Nat) :
    (∀ r c, r < n → c < n → getCell (refillBoard rand board n) r c ≠ none) ∧
    (∀ r c v, r < n → c < n → getCell board r c = some v →
      getCell (refillBoard rand board n) r c = some v) ∧
    (∀ r c, r < n → c < n → getCell board r c = none →
      ∃ x, getCell (refillBoard rand board n) r c = some x ∧ x ∈ INITIAL_NUMBERS) := by
  refine ⟨fun r c hr hc => refillBoard_total rand board hr hc,
    fun r c v hr hc hv => refillBoard_keeps rand hr hc hv,
    fun r c hr hc hempty => ⟨getRandomNumber (rand r c),
      refillBoard_fills rand hr hc hempty, ?_⟩⟩
  rcases getRandomNumber_cases (rand r c) with h | h | h <;> rw [h] <;> decide

theorem claim_C5_witness :
    getCell (refillBoard (fun _ _ => (0 : Fin 3)) [[none]] 1) 0 0 ≠ none :=
  (claim_C5 (fun _ _ => (0 : Fin 3)) [[none]] 1).1 0 0 (by decide) (by decide)

/-- C6: `findFirstClickablePanel` scans rows from `boardSize - 1` down to
`0` and columns from `0` up within each row, and returns the first
coordinate in that order whose cell is non-empty and whose connected
region has at least 2 members; if no cell qualifies it returns `none`
(a scanned-later cell is one with a strictly greater row, or the same row
and a strictly smaller column... i.e. `r < r' ∨ (r' = r ∧ c' < c)` marks
the cells visited before the returned one). -/
theorem claim_C6 (board : GameBoard) (n : Nat) :
    (findFirstClickablePanel board n = none ↔
      ∀ r c, r < n → c < n →
        ¬(getCell board r c ≠ none ∧ 2 ≤ (findConnectedPanels board r c n).length)) ∧
    (∀ r c, findFirstClickablePanel board n = some (r, c) →
      r < n ∧ c < n ∧ getCell board r c ≠ none ∧
      2 ≤ (findConnectedPanels board r c n).length ∧
      ∀ r' c', r' < n → c' < n → (r < r' ∨ (r' = r ∧ c' < c)) →
        ¬(getCell board r' c' ≠ none ∧ 2 ≤ (findConnectedPanels board r' c' n).length)) :=
  ⟨findFirstClickablePanel_none_iff board n,
   fun _ _ h => findFirstClickablePanel_some_spec h⟩

theorem claim_C6_witness :
    2 ≤ (findConnectedPanels [[some 1, some 1], [some 2, some 4]] 0 0 2).length :=
  ((claim_C6 [[some 1, some 1], [some 2, some 4]] 2).2 0 0 (by decide)).2.2.2.1

/-- C1: for every successful move (non-empty selected cell whose connected
region has at least 2 members), the destination cell of the merged value
is the region member with the maximum row and, among members tying for
that row, the minimum column; the destination receives exactly twice the
region's common value, and every other region member is empty in the
pre-gravity board `mergeBoard`; the move's final board is the refill of
the gravity-compacted `mergeBoard`. -/
theorem claim_C1 (rand : Nat → Nat → Fin 3) (s : GameState) (n row col v : Nat)
    (hWF : WF s.board n) (hw : s.gameWon = false)
    (hv : getCell s.board row col = some v)
    (h2 : 2 ≤ (findConnectedPanels s.board row col n).length) :
    mergeDest s.board n row col ∈ findConnectedPanels s.board row col n ∧
    (∀ p ∈ findConnectedPanels s.board row col n, p.1 ≤ (mergeDest s.board n row col).1) ∧
    (∀ p ∈ findConnectedPanels s.board row col n,
      p.1 = (mergeDest s.board n row col).1 → (mergeDest s.board n row col).2 ≤ p.2) ∧
    (∀ p ∈ findConnectedPanels s.board row col n, getCell s.board p.1 p.2 = some v) ∧
    getCell (mergeBoard s.board n row col)
      (mergeDest s.board n row col).1 (mergeDest s.board n row col).2 = some (2 * v) ∧
    (∀ p ∈ findConnectedPanels s.board row col n, p ≠ mergeDest s.board n row col →
      getCell (mergeBoard s.board n row col) p.1 p.2 = none) ∧
    (handlePanelClick rand s n row col).board =
      refillBoard rand (applyGravity (mergeBoard s.board n row col) n) n := by
  obtain ⟨hr, hc⟩ := inBounds_of_getCell_ne_none hWF (by rw [hv]; simp)
  obtain ⟨hd1, hd2, hd3⟩ := mergeDest_spec hr hc hv
  refine ⟨hd1, hd2, hd3, fun p hp => (region_cells hr hc hv p hp).2,
    getCell_mergeBoard_dest hWF hr hc hv,
    getCell_mergeBoard_cleared hWF hr hc hv, ?_⟩
  rw [handlePanelClick_success rand s n row col hw (by rw [hv]; simp) h2]

theorem claim_C1_witness :
    getCell (mergeBoard [[some 1, some 1], [some 2, some 4]] 2 0 0)
      (mergeDest [[some 1, some 1], [some 2, some 4]] 2 0 0).1
      (mergeDest [[some 1, some 1], [some 2, some 4]] 2 0 0).2 = some (2 * 1) :=
  (claim_C1 (fun _ _ => (0 : Fin 3))
    ⟨[[some 1, some 1], [some 2, some 4]], false, none⟩ 2 0 0 1
    (by decide) rfl (by decide) (by decide)).2.2.2.2.1

/-- C7: a move selection is a no-op (board and win flag unchanged) exactly
when the selected cell is empty, its connected region has fewer than 2
members, or the win flag is already set; any other selection produces a
different board. -/
theorem claim_C7 (rand : Nat → Nat → Fin 3) (s : GameState) (n row col : Nat)
    (hWF : WF s.board n) :
    ((handlePanelClick rand s n row col).board = s.board ∧
     (handlePanelClick rand s n row col).gameWon = s.gameWon) ↔
    (s.gameWon = true ∨ getCell s.board row col = none ∨
     (findConnectedPanels s.board row col n).length < 2) := by
  constructor
  · intro hnoop
    by_contra hcon
    push_neg at hcon
    obtain ⟨hw, hne, h2⟩ := hcon
    have hwf : s.gameWon = false := by
      cases hbool : s.gameWon
      · rfl
      · exact absurd hbool hw
    obtain ⟨v, hv⟩ := Option.ne_none_iff_exists'.mp hne
    have hsucc := handlePanelClick_success rand s n row col hwf hne (by omega)
    have hb := congrArg GameState.board hsucc
    rw [hnoop.1] at hb
    exact success_changes_board rand hWF hv (by omega) hb.symm
  · intro hcase
    rcases hcase with hw | he | hl
    · rw [handlePanelClick_noop_won rand s n row col hw]
      exact ⟨rfl, rfl⟩
    · rw [handlePanelClick_noop_empty rand s n row col he]
      exact ⟨rfl, rfl⟩
    · rw [handlePanelClick_noop_small rand s n row col hl]
      exact ⟨rfl, rfl⟩

theorem claim_C7_witness :
    (handlePanelClick (fun _ _ => (0 : Fin 3)) ⟨[[some 1]], true, none⟩ 1 0 0).board
      = (⟨[[some 1]], true, none⟩ : GameState).board ∧
    (handlePanelClick (fun _ _ => (0 : Fin 3)) ⟨[[some 1]], true, none⟩ 1 0 0).gameWon
      = (⟨[[some 1]], true, none⟩ : GameState).gameWon :=
  (claim_C7 (fun _ _ => (0 : Fin 3)) ⟨[[some 1]], true, none⟩ 1 0 0 (by decide)).mpr
    (Or.inl rfl)

/-- C8: the win flag becomes true exactly when a merge writes the target
value `2147483648 = 2 ^ 31`; once true, both move drivers leave the state
untouched (so the flag never becomes false again during play — it is
reset only by `resetGame` or `handleBoardSizeChange`, which start a fresh
game with the flag cleared). -/
theorem claim_C8 (rand : Nat → Nat → Fin 3) (s : GameState) (n row col : Nat) :
    TARGET_NUMBER = 2 ^ 31 ∧
    (s.gameWon = true → handlePanelClick rand s n row col = s ∧ autoStep rand s n = s) ∧
    ((handlePanelClick rand s n row col).gameWon = true ↔
      (s.gameWon = true ∨
        (getCell s.board row col ≠ none ∧
         2 ≤ (findConnectedPanels s.board row col n).length ∧
         2 * (getCell s.board row col).getD 0 = TARGET_NUMBER))) ∧
    ((autoStep rand s n).gameWon = true ↔
      (s.gameWon = true ∨
        ∃ rc : Nat × Nat, findFirstClickablePanel s.board n = some rc ∧
          2 * (getCell s.board rc.1 rc.2).getD 0 = TARGET_NUMBER)) ∧
    (resetGame rand n).gameWon = false ∧
    (handleBoardSizeChange rand n).gameWon = false := by
  refine ⟨by decide,
    fun hw => ⟨handlePanelClick_noop_won rand s n row col hw, autoStep_noop_won rand s n hw⟩,
    ?_, ?_, rfl, rfl⟩
  · by_cases hw : s.gameWon = true
    · rw [handlePanelClick_noop_won rand s n row col hw]
      simp [hw]
    · have hwf : s.gameWon = false := by
        cases hbool : s.gameWon
        · rfl
        · exact absurd hbool hw
      by_cases hne : getCell s.board row col = none
      · rw [handlePanelClick_noop_empty rand s n row col hne]
        simp [hwf, hne]
      · by_cases h2 : 2 ≤ (findConnectedPanels s.board row col n).length
        · rw [handlePanelClick_success rand s n row col hwf hne h2]
          simp [hwf, hne, h2]
        · rw [handlePanelClick_noop_small rand s n row col (by omega)]
          simp [hwf, hne, h2]
  · by_cases hw : s.gameWon = true
    · rw [autoStep_noop_won rand s n hw]
      simp [hw]
    · have hwf : s.gameWon = false := by
        cases hbool : s.gameWon
        · rfl
        · exact absurd hbool hw
      cases hf : findFirstClickablePanel s.board n with
      | none =>
          rw [autoStep_noop_none rand s n hf]
          simp [hwf, hf]
      | some rc =>
          obtain ⟨r0, c0⟩ := rc
          have hspec := findFirstClickablePanel_some_spec hf
          rw [autoStep_success rand s n r0 c0 hwf hf hspec.2.2.2.1]
          simp [hwf, hf]

theorem claim_C8_witness : TARGET_NUMBER = 2 ^ 31 :=
  (claim_C8 (fun _ _ => (0 : Fin 3)) ⟨[[some 1]], false, none⟩ 1 0 0).1

/-- All values on the board produced by one successful move are powers of
two whenever the input board only held powers of two. -/
theorem move_preserves_pow (rand : Nat → Nat → Fin 3) {board : GameBoard}
    {n row col : Nat} (hWF : WF board n)
    (hpow : ∀ r c v, r < n → c < n → getCell board r c = some v → ∃ k, v = 2 ^ k)
    (hne : getCell board row col ≠ none) :
    ∀ r c w, r < n → c < n →
      getCell (refillBoard rand (applyGravity (mergeBoard board n row col) n) n) r c
        = some w →
      ∃ k, w = 2 ^ k := by
  obtain ⟨v0, hv0⟩ := Option.ne_none_iff_exists'.mp hne
  obtain ⟨hrow, hcol⟩ := inBounds_of_getCell_ne_none hWF hne
  intro r c w hr hc hcell
  rcases getCell_refillBoard_cases rand hr hc hcell with hcase | hbase
  · obtain ⟨r', c', hr', hc', hg⟩ := getCell_applyGravity_exists hr hc hcase
    rcases getCell_mergeBoard_cases hWF hrow hcol hv0 r' c' w hr' hc' hg with h2v | horig
    · obtain ⟨k, hk⟩ := hpow row col v0 hrow hcol hv0
      refine ⟨k + 1, ?_⟩
      rw [h2v, hk]
      ring
    · exact hpow r' c' w hr' hc' horig
  · rcases hbase with rfl | rfl | rfl
    · exact ⟨0, rfl⟩
    · exact ⟨1, rfl⟩
    · exact ⟨2, rfl⟩

/-- C9: on every state reachable from a fresh board via manual moves and
auto-mode ticks, the board stays `boardSize × boardSize` and every
non-empty cell holds a power of two: initial and refilled cells are drawn
from `{1, 2, 4}` and a merge writes exactly twice the merged region's
common value. -/
theorem claim_C9 (n : Nat) :
    ∀ s : GameState, Reachable n s →
      WF s.board n ∧
      ∀ r c v, r < n → c < n → getCell s.board r c = some v → ∃ k, v = 2 ^ k := by
  intro s hreach
  induction hreach with
  | init rand =>
      refine ⟨WF_mkBoard _ n, ?_⟩
      intro r c v hr hc hv
      have hv' : getCell (generateInitialBoard rand n) r c = some v := hv
      unfold generateInitialBoard at hv'
      rw [getCell_mkBoard _ n r c hr hc] at hv'
      have hval := Option.some.inj hv'
      have hcase := getRandomNumber_cases (rand r c)
      unfold getRandomNumber at hcase
      rw [hval] at hcase
      rcases hcase with rfl | rfl | rfl
      · exact ⟨0, rfl⟩
      · exact ⟨1, rfl⟩
      · exact ⟨2, rfl⟩
  | click s' rand row col hs ih =>
      obtain ⟨hWF, hpow⟩ := ih
      by_cases hw : s'.gameWon = true
      · rw [handlePanelClick_noop_won rand s' n row col hw]
        exact ⟨hWF, hpow⟩
      · have hwf : s'.gameWon = false := by
          cases hbool : s'.gameWon
          · rfl
          · exact absurd hbool hw
        by_cases hne : getCell s'.board row col = none
        · rw [handlePanelClick_noop_empty rand s' n row col hne]
          exact ⟨hWF, hpow⟩
        · by_cases h2 : 2 ≤ (findConnectedPanels s'.board row col n).length
          · rw [handlePanelClick_success rand s' n row col hwf hne h2]
            exact ⟨WF_refillBoard rand _ n, move_preserves_pow rand hWF hpow hne⟩
          · rw [handlePanelClick_noop_small rand s' n row col (by omega)]
            exact ⟨hWF, hpow⟩
  | auto s' rand hs ih =>
      obtain ⟨hWF, hpow⟩ := ih
      by_cases hw : s'.gameWon = true
      · rw [autoStep_noop_won rand s' n hw]
        exact ⟨hWF, hpow⟩
      · have hwf : s'.gameWon = false := by
          cases hbool : s'.gameWon
          · rfl
          · exact absurd hbool hw
        cases hf : findFirstClickablePanel s'.board n with
        | none =>
            rw [autoStep_noop_none rand s' n hf]
            exact ⟨hWF, hpow⟩
        | some rc =>
            obtain ⟨row, col⟩ := rc
            have hspec := findFirstClickablePanel_some_spec hf
            rw [autoStep_success rand s' n row col hwf hf hspec.2.2.2.1]
            exact ⟨WF_refillBoard rand _ n, move_preserves_pow rand hWF hpow hspec.2.2.1⟩

theorem claim_C9_witness :
    WF (GameState.board ⟨generateInitialBoard (fun _ _ => (0 : Fin 3)) 1, false, none⟩) 1 :=
  (claim_C9 1 ⟨generateInitialBoard (fun _ _ => (0 : Fin 3)) 1, false, none⟩
    (Reachable.init (fun _ _ => (0 : Fin 3)))).1

/-- A board on which the doubled value 2 is first found, scanning from the
bottom-left, at a freshly refilled cell. -/
def demoBoard2 : GameBoard :=
  [[some 1, some 4, none], [some 1, some 4, none], [some 8, some 4, none]]

/-- A board on which the doubled value 4 is first found, scanning from the
bottom-left, at a freshly refilled cell. -/
def demoBoard4 : GameBoard :=
  [[some 2, some 1, none], [some 2, some 1, none], [some 8, some 1, none]]

/-- C10: after every successful move, the reported converted-panel
position is the first coordinate of the final post-refill board, scanning
rows from the bottom and columns from the left, whose cell equals the
doubled value; such a cell always exists; and when the doubled value is 2
(resp. 4) this coordinate may belong to a freshly refilled tile rather
than the tile created by the merge, as the two concrete scenarios show
(their reported cell was empty before the refill, while the merged tile
sits elsewhere). -/
theorem claim_C10 (rand : Nat → Nat → Fin 3) (s : GameState) (n row col v : Nat)
    (hWF : WF s.board n) (hw : s.gameWon = false)
    (hv : getCell s.board row col = some v)
    (h2 : 2 ≤ (findConnectedPanels s.board row col n).length) :
    ((handlePanelClick rand s n row col).convertedPanelPosition
      = findConvertedPosition (handlePanelClick rand s n row col).board n (2 * v)) ∧
    (∃ pr pc, (handlePanelClick rand s n row col).convertedPanelPosition = some (pr, pc) ∧
      pr < n ∧ pc < n ∧
      getCell (handlePanelClick rand s n row col).board pr pc = some (2 * v) ∧
      ∀ r' c', r' < n → c' < n → (pr < r' ∨ (r' = pr ∧ c' < pc)) →
        getCell (handlePanelClick rand s n row col).board r' c' ≠ some (2 * v)) ∧
    ((handlePanelClick (fun _ _ => (1 : Fin 3)) ⟨demoBoard2, false, none⟩
        3 0 0).convertedPanelPosition = some (2, 2) ∧
      getCell (applyGravity (mergeBoard demoBoard2 3 0 0) 3) 2 2 = none ∧
      2 * (getCell demoBoard2 0 0).getD 0 = 2) ∧
    ((handlePanelClick (fun _ _ => (2 : Fin 3)) ⟨demoBoard4, false, none⟩
        3 0 0).convertedPanelPosition = some (2, 2) ∧
      getCell (applyGravity (mergeBoard demoBoard4 3 0 0) 3) 2 2 = none ∧
      2 * (getCell demoBoard4 0 0).getD 0 = 4) := by
  have hne : getCell s.board row col ≠ none := by rw [hv]; simp
  have hgetD : (getCell s.board row col).getD 0 = v := by rw [hv]; rfl
  have hsucc := handlePanelClick_success rand s n row col hw hne h2
  obtain ⟨hrow, hcol⟩ := inBounds_of_getCell_ne_none hWF hne
  refine ⟨?_, ?_, by refine ⟨by decide, by decide, by decide⟩,
    by refine ⟨by decide, by decide, by decide⟩⟩
  · rw [hsucc]
    dsimp only
    rw [hgetD]
  · obtain ⟨hdmem, -, -⟩ := mergeDest_spec hrow hcol hv
    have hdin := (region_cells hrow hcol hv _ hdmem).1
    have hdest := getCell_mergeBoard_dest hWF hrow hcol hv
    have hmem2v : 2 * v ∈ boardVals (mergeBoard s.board n row col) n :=
      mem_boardVals.mpr ⟨_, _, hdin.1, hdin.2, hdest⟩
    rw [← boardVals_applyGravity (mergeBoard s.board n row col) n] at hmem2v
    obtain ⟨rg, cg, hrg, hcg, hgcell⟩ := mem_boardVals.mp hmem2v
    have hFcell : getCell (refillBoard rand
        (applyGravity (mergeBoard s.board n row col) n) n) rg cg = some (2 * v) :=
      refillBoard_keeps rand hrg hcg hgcell
    cases hfc : findConvertedPosition (refillBoard rand
        (applyGravity (mergeBoard s.board n row col) n) n) n (2 * v) with
    | none =>
        exact absurd hFcell
          ((findConvertedPosition_none_iff _ n (2 * v)).mp hfc rg cg hrg hcg)
    | some p =>
        obtain ⟨pr, pc⟩ := p
        obtain ⟨hp1, hp2, hp3, hp4⟩ := findConvertedPosition_some_spec hfc
        refine ⟨pr, pc, ?_, hp1, hp2, ?_, ?_⟩
        · rw [hsucc]
          dsimp only
          rw [hgetD, hfc]
        · rw [hsucc]
          exact hp3
        · intro r' c' hr' hc' hord
          rw [hsucc]
          exact hp4 r' c' hr' hc' hord

theorem claim_C10_witness :
    (handlePanelClick (fun _ _ => (1 : Fin 3)) ⟨demoBoard2, false, none⟩
      3 0 0).convertedPanelPosition
      = findConvertedPosition
          (handlePanelClick (fun _ _ => (1 : Fin 3)) ⟨demoBoard2, false, none⟩ 3 0 0).board
          3 (2 * 1) :=
  (claim_C10 (fun _ _ => (1 : Fin 3)) ⟨demoBoard2, false, none⟩ 3 0 0 1
    (by decide) rfl (by decide) (by decide)).1
